import Mathlib

/-!
# 20questions: the decision-tree engine of `main.js`

A shallow embedding of the game logic of `src/main.js` (lines 39-187) and
theorems about traversal, learning and reset.

JavaScript objects are mutable and shared by reference, so the embedding keeps
an explicit heap: an object is an address into a list of records, and the
globals `decisionTree`, `currentNode` and `parentNode` hold references. The
assignment `parentNode[lastAnswer] = newQuestionNode` is a write at the
address `parentNode` holds.

Of the presentation, what decides which handler can run is kept: the buttons
of `controlsBox` and `gameOverBox`, whether `learningBox` and `gameOverBox` are
hidden, and the texts still being typed. `typeWriter` types on timers and
calls its completion callback, which is where `showButtons` is called, only
when the text is out; until then the page shows the buttons it showed before.
`playSound`, `alert` and the text on the screen change nothing the game logic
reads and are left out.
-/

namespace TwentyQuestions

/-! ## Values and the heap -/

/-- The two answers, the strings `'yes'` and `'no'` of the source. -/
inductive Answer where
  | yes
  | no
  deriving DecidableEq, Repr

/-- The other answer: `newQuestionAnswer === 'yes' ? 'no' : 'yes'`. -/
def Answer.opposite : Answer → Answer
  | .yes => .no
  | .no => .yes

/-- What a node variable or a child property can hold: `undefined` (also an
absent property), `null`, or a reference to an object. -/
inductive Ref where
  | undefined
  | null
  | obj (addr : Nat)
  deriving DecidableEq, Repr

/-- An object of the program, with the four properties the program reads.
`none` is an absent string property, `Ref.undefined` an absent child. -/
structure Obj where
  question : Option String
  guess : Option String
  yes : Ref
  no : Ref
  deriving DecidableEq, Repr

/-- Reads `o[answer]`. -/
def Obj.get (o : Obj) : Answer → Ref
  | .yes => o.yes
  | .no => o.no

/-- The object after `o[answer] = v`. -/
def Obj.set (o : Obj) (a : Answer) (v : Ref) : Obj :=
  match a with
  | .yes => { o with yes := v }
  | .no => { o with no := v }

/-- The heap: the object at address `a` is the entry at index `a`. Objects are
never freed; a new object is appended. -/
abbrev Heap := List Obj

/-- Allocates a new object and returns the heap with its address. -/
def Heap.alloc (h : Heap) (o : Obj) : Heap × Ref :=
  (h ++ [o], .obj h.length)

/-- The heap after `target[key] = v` for an object `target`. A `null` key
writes the property named `"null"`, which the program never reads, so the four
modelled properties stay as they are. -/
def Heap.setChild (h : Heap) (target : Nat) (key : Option Answer) (v : Ref) : Heap :=
  match key, h[target]? with
  | some a, some o => h.set target (o.set a v)
  | _, _ => h

/-- What stops a handler. `validation` is the one refusal `main.js` makes
itself: the `alert` and early `return` of `processLearning`. The other two
are exceptions of the runtime, which no statement of `main.js` throws or
catches: the `TypeError` of reading or writing a property of `null` or
`undefined`, and an exception of the JSON round trip. `main.js` has no error
of its own for a call made in the wrong state. -/
inductive Err where
  | validation
  | typeError
  | jsonError
  deriving DecidableEq, Repr

/-- JavaScript truthiness of a string-valued property: absent and the empty
string are falsy. -/
def truthy : Option String → Bool
  | none => false
  | some s => s ≠ ""

/-! ## JSON round trip -/

/-- The text `JSON.stringify` produces for a node, as its parse tree. -/
inductive Json where
  | absent
  | null
  | obj (question guess : Option String) (yes no : Json)
  deriving DecidableEq, Repr

/-- Model of `JSON.stringify` on a node: `none` when an object chain is
longer than the fuel, which with fuel the number of objects means a cycle (the
`TypeError` for a circular structure). An `undefined` child is omitted. -/
def stringify : Nat → Heap → Ref → Option Json
  | _, _, .undefined => some .absent
  | _, _, .null => some .null
  | 0, _, .obj _ => none
  | fuel + 1, h, .obj a =>
    match h[a]? with
    | none => none
    | some o =>
      match stringify fuel h o.yes, stringify fuel h o.no with
      | some y, some n => some (.obj o.question o.guess y n)
      | _, _ => none

/-- Model of `JSON.parse`: builds fresh objects for the text, children first. -/
def parse : Json → Heap → Heap × Ref
  | .absent, h => (h, .undefined)
  | .null, h => (h, .null)
  | .obj q g y n, h =>
    let r1 := parse y h
    let r2 := parse n r1.1
    Heap.alloc r2.1 ⟨q, g, r1.2, r2.2⟩

/-- Model of `JSON.parse(JSON.stringify(v))`. `JSON.stringify(undefined)` is
`undefined`, which `JSON.parse` refuses. -/
def jsonRoundTrip (h : Heap) (v : Ref) : Option (Heap × Ref) :=
  match stringify h.length h v with
  | none => none
  | some .absent => none
  | some j => some (parse j h)

/-! ## Program state -/

/-- A click handler a button can carry. -/
inductive Handler where
  | beginGame
  | maybeLater
  | handleAnswer (answer : Answer)
  | handleCorrectGuess
  | startLearning
  | resetGameToInitialState
  deriving DecidableEq, Repr

/-- The completion callbacks `main.js` passes to `typeWriter`, each a call or
two of `showButtons`: the buttons of `startGame`; of `askQuestion`; of
`makeGuess`; of `handleCorrectGuess` and `processLearning`. -/
inductive Completion where
  | introButtons
  | answerButtons
  | guessButtons
  | overButtons
  deriving DecidableEq, Repr

/-- The globals of `main.js` with the heap they point into, and the part of
the page the handlers read or that decides what can be clicked. `typing`
holds the callbacks of the texts `typeWriter` has not finished typing. -/
structure State where
  heap : Heap
  initialDecisionTree : Ref
  decisionTree : Ref
  gameState : String
  currentNode : Ref
  parentNode : Ref
  lastAnswer : Option Answer
  userObjectInput : String
  newQuestionInput : String
  controlsBox : List Handler
  gameOverBox : List Handler
  gameOverBoxHidden : Bool
  learningBoxHidden : Bool
  typing : List Completion
  deriving DecidableEq, Repr

/-- How a handler ends: normally, or stopped by `e`; either way with the
state it left behind. -/
inductive Outcome where
  | ok (s : State)
  | fail (e : Err) (s : State)
  deriving DecidableEq, Repr

/-- The state a handler left behind. -/
def Outcome.state : Outcome → State
  | .ok s => s
  | .fail _ s => s

/-- The error that stopped the handler, if any. -/
def Outcome.error : Outcome → Option Err
  | .ok _ => none
  | .fail e _ => some e

/-- The object a reference points to; `none` for `null` and `undefined`,
where a property access throws. -/
def deref (h : Heap) : Ref → Option Obj
  | .obj a => h[a]?
  | _ => none

/-! ## String trimming -/

/-- White space and line terminators removed by `String.prototype.trim`. -/
def isJsWhiteSpace (c : Char) : Bool :=
  c.toNat ∈ [0x09, 0x0A, 0x0B, 0x0C, 0x0D, 0x20, 0xA0, 0x1680, 0x2028, 0x2029,
    0x202F, 0x205F, 0x3000, 0xFEFF] || (0x2000 ≤ c.toNat && c.toNat ≤ 0x200A)

/-- Model of `String.prototype.trim`. -/
def jsTrim (s : String) : String :=
  String.mk ((s.data.dropWhile isJsWhiteSpace).reverse.dropWhile isJsWhiteSpace).reverse

/-! ## The handlers of `main.js` -/

/-- Runs a completion callback: `showButtons` replaces the buttons of its
container; the callback of `handleCorrectGuess` and `processLearning` also
shows `gameOverBox`. -/
def Completion.run : Completion → State → State
  | .introButtons, s => { s with controlsBox := [.beginGame, .maybeLater] }
  | .answerButtons, s => { s with controlsBox := [.handleAnswer .yes, .handleAnswer .no] }
  | .guessButtons, s => { s with controlsBox := [.handleCorrectGuess, .startLearning] }
  | .overButtons, s =>
    { s with
      controlsBox := [.beginGame]
      gameOverBoxHidden := false
      gameOverBox := [.resetGameToInitialState] }

/-- Source `typeWriter(text, onComplete)` for a string `text`: with nothing to
type the callback runs at once; otherwise the characters come on timers and
the callback waits in `typing` until the last one is out. -/
def typeWriter (text : String) (onComplete : Completion) (s : State) : State :=
  if text = "" then onComplete.run s else { s with typing := s.typing ++ [onComplete] }

/-- The text of `makeGuess`, the template literal around `currentNode.guess`. -/
def guessText (guess : Option String) : String :=
  "Is it... " ++ guess.getD "undefined" ++ "?"

/-- Source `askQuestion`: `typeWriter(currentNode.question, ...)` throws when
`currentNode` is `null` or `undefined`, and when the question is `undefined`
(at `text.length`); otherwise the question is typed and the Yes and No
buttons follow. -/
def askQuestion (s : State) : Outcome :=
  let s1 := { s with gameState := "playing" }
  match deref s1.heap s1.currentNode with
  | none => .fail .typeError s1
  | some o =>
    match o.question with
    | none => .fail .typeError s1
    | some q => .ok (typeWriter q .answerButtons s1)

/-- Source `makeGuess`. -/
def makeGuess (s : State) : Outcome :=
  let s1 := { s with gameState := "guessing" }
  match deref s1.heap s1.currentNode with
  | none => .fail .typeError s1
  | some o => .ok (typeWriter (guessText o.guess) .guessButtons s1)

/-- Source `beginGame`. -/
def beginGame (s : State) : Outcome :=
  askQuestion { s with
    gameOverBoxHidden := true
    currentNode := s.decisionTree
    parentNode := .null
    lastAnswer := none }

/-- Source `handleAnswer`. -/
def handleAnswer (answer : Answer) (s : State) : Outcome :=
  let s1 := { s with parentNode := s.currentNode, lastAnswer := some answer }
  match deref s1.heap s.currentNode with
  | none => .fail .typeError s1
  | some o =>
    let s2 := { s1 with currentNode := o.get answer }
    match deref s2.heap s2.currentNode with
    | none => .fail .typeError s2
    | some c => if truthy c.guess then makeGuess s2 else askQuestion s2

/-- Source `handleCorrectGuess`. -/
def handleCorrectGuess (s : State) : Outcome :=
  .ok (typeWriter "Heh heh heh... I always win. Play again?" .overButtons
    { s with gameState := "end" })

/-- Source `startLearning`. Its text is typed without a callback. -/
def startLearning (s : State) : Outcome :=
  .ok { s with
    gameState := "learning"
    controlsBox := []
    gameOverBoxHidden := true
    learningBoxHidden := false }

/-- The object literal `{ question: q, [a]: va, [opposite of a]: vo }`. -/
def questionObj (q : String) (a : Answer) (va vo : Ref) : Obj :=
  match a with
  | .yes => ⟨some q, none, va, vo⟩
  | .no => ⟨some q, none, vo, va⟩

/-- Source `processLearning`. -/
def processLearning (newQuestionAnswer : Answer) (s : State) : Outcome :=
  let userObject := jsTrim s.userObjectInput
  let newQuestion := jsTrim s.newQuestionInput
  if userObject = "" ∨ newQuestion = "" then .fail .validation s
  else
    let oldGuessNode := s.currentNode
    let r1 := Heap.alloc s.heap ⟨none, some userObject, .undefined, .undefined⟩
    let r2 := Heap.alloc r1.1 (questionObj newQuestion newQuestionAnswer r1.2 oldGuessNode)
    match s.parentNode with
    | .obj p =>
      .ok (typeWriter "Hmph. Fine. I've 'learned'. Let's play again." .overButtons
        { s with
          heap := Heap.setChild r2.1 p s.lastAnswer r2.2
          userObjectInput := ""
          newQuestionInput := ""
          learningBoxHidden := true })
    | _ => .fail .typeError { s with heap := r2.1 }

/-- Source `resetGameToInitialState`. -/
def resetGameToInitialState (s : State) : Outcome :=
  match jsonRoundTrip s.heap s.initialDecisionTree with
  | none => .fail .jsonError s
  | some r => beginGame { s with heap := r.1, decisionTree := r.2 }

/-- Source `startGame`. -/
def startGame (s : State) : Outcome :=
  .ok (typeWriter "Do you... wanna play a game...?" .introButtons
    { s with
      gameState := "intro"
      learningBoxHidden := true
      gameOverBoxHidden := true })

/-- The objects of the literal `initialDecisionTree`, the root at address 0. -/
def initialHeap : Heap :=
  [ ⟨some "Is it an animal?", none, .obj 1, .obj 4⟩,
    ⟨some "Does it meow?", none, .obj 2, .obj 3⟩,
    ⟨none, some "a cat", .undefined, .undefined⟩,
    ⟨none, some "a dog", .undefined, .undefined⟩,
    ⟨some "Can you eat it?", none, .obj 5, .obj 6⟩,
    ⟨none, some "a carrot", .undefined, .undefined⟩,
    ⟨none, some "a rock", .undefined, .undefined⟩ ]

/-- The state once the top-level declarations of lines 40-60 have run:
`decisionTree` is the JSON copy of `initialDecisionTree`. The page itself is
not part of `main.js`: its two button boxes are taken to start empty and its
input fields blank; `startGame` hides both boxes whatever they were. -/
def loaded : State :=
  let r := (jsonRoundTrip initialHeap (.obj 0)).getD (initialHeap, .undefined)
  { heap := r.1
    initialDecisionTree := .obj 0
    decisionTree := r.2
    gameState := "start"
    currentNode := .null
    parentNode := .null
    lastAnswer := none
    userObjectInput := ""
    newQuestionInput := ""
    controlsBox := []
    gameOverBox := []
    gameOverBoxHidden := true
    learningBoxHidden := true
    typing := [] }

/-- The state when `main` has called `startGame`. -/
def started : State := (startGame loaded).state

/-- The user types into the two fields of the learning box. -/
def typeInputs (userObject newQuestion : String) (s : State) : State :=
  { s with userObjectInput := userObject, newQuestionInput := newQuestion }

/-- Runs the handler of a button. The text of the "No" button of the intro is
typed without a callback. -/
def Handler.run : Handler → State → Outcome
  | .beginGame => TwentyQuestions.beginGame
  | .maybeLater => Outcome.ok
  | .handleAnswer a => TwentyQuestions.handleAnswer a
  | .handleCorrectGuess => TwentyQuestions.handleCorrectGuess
  | .startLearning => TwentyQuestions.startLearning
  | .resetGameToInitialState => TwentyQuestions.resetGameToInitialState

/-- Calls `handleAnswer` for each answer in turn, stopping at a failure. -/
def answers : List Answer → State → Outcome
  | [], s => .ok s
  | a :: rest, s =>
    match handleAnswer a s with
    | .ok s1 => answers rest s1
    | .fail e s1 => .fail e s1

/-- A round played from `beginGame` along the answers `p`. -/
def playRound (p : List Answer) (s : State) : Outcome :=
  match beginGame s with
  | .ok s1 => answers p s1
  | .fail e s1 => .fail e s1

/-- A round that ends in teaching: `beginGame`, the answers `p`, the user
fills in the two fields, and `processLearning a` runs. -/
def teachRound (p : List Answer) (a : Answer) (userObject newQuestion : String)
    (s : State) : Outcome :=
  match playRound p s with
  | .ok s1 => processLearning a (typeInputs userObject newQuestion s1)
  | .fail e s1 => .fail e s1

/-- The round after a teaching round, played along the same answers. -/
def nextRound (p : List Answer) (a : Answer) (userObject newQuestion : String)
    (s : State) : Outcome :=
  playRound p (teachRound p a userObject newQuestion s).state

/-- What can happen on the page: a button is clicked, one of the two buttons
of the learning box is clicked (`processLearning`), the user edits the two
input fields, or the `i`-th of the texts being typed is out and its callback
runs. -/
inductive Event where
  | click (h : Handler)
  | teach (a : Answer)
  | input (userObject newQuestion : String)
  | typed (i : Nat)
  deriving DecidableEq, Repr

/-- The state after an event. An exception ends the handler; the page goes on
from the state the handler left. -/
def Event.run : Event → State → State
  | .click h, s => (h.run s).state
  | .teach a, s => (processLearning a s).state
  | .input u q, s => typeInputs u q s
  | .typed i, s =>
    match s.typing[i]? with
    | none => s
    | some c => c.run { s with typing := s.typing.eraseIdx i }

/-- The state after a sequence of events. -/
def runEvents : List Event → State → State
  | [], s => s
  | e :: es, s => runEvents es (e.run s)

/-- A round that ends in a correct guess: `beginGame`, the answers `p`, and
`handleCorrectGuess`. -/
def correctRound (p : List Answer) (s : State) : Outcome :=
  match playRound p s with
  | .ok s1 => handleCorrectGuess s1
  | .fail e s1 => .fail e s1

/-- The first `k` answers of an unending supply of answers. -/
def firstAnswers (f : Nat → Answer) (k : Nat) : List Answer := (List.range k).map f

/-- What the page permits: a click on a button that is in `controlsBox`, or
in `gameOverBox` while that box is not hidden; a click on `newQYesBtn` or
`newQNoBtn`, which sit in the learning box, while that box is not hidden;
editing the fields; the end of a text that is being typed. The buttons in
`controlsBox` are those the last finished text put there, also while the
next text is being typed. -/
def Permitted (s : State) : Event → Prop
  | .click h => h ∈ s.controlsBox ∨ (s.gameOverBoxHidden = false ∧ h ∈ s.gameOverBox)
  | .teach _ => s.learningBoxHidden = false
  | .input _ _ => True
  | .typed i => i < s.typing.length

instance Permitted.decidable (s : State) : (e : Event) → Decidable (Permitted s e)
  | .click h =>
    inferInstanceAs
      (Decidable (h ∈ s.controlsBox ∨ (s.gameOverBoxHidden = false ∧ h ∈ s.gameOverBox)))
  | .teach _ => inferInstanceAs (Decidable (s.learningBoxHidden = false))
  | .input _ _ => isTrue trivial
  | .typed i => inferInstanceAs (Decidable (i < s.typing.length))

/-- The user waits for the text: no button is clicked while a text that
brings new buttons is still being typed. -/
def Waited (s : State) : Event → Prop
  | .click _ => s.typing = []
  | _ => True

instance Waited.decidable (s : State) : (e : Event) → Decidable (Waited s e)
  | .click _ => inferInstanceAs (Decidable (s.typing = []))
  | .teach _ => isTrue trivial
  | .input _ _ => isTrue trivial
  | .typed _ => isTrue trivial

/-- The states the page can reach: from the state `main` leaves, by events
the page permits. -/
inductive Reachable : State → Prop where
  | start : Reachable started
  | step {s : State} {e : Event} : Reachable s → Permitted s e → Reachable (e.run s)

/-- The states the page reaches when the user waits for each text before
clicking a button. -/
inductive ReachableWaiting : State → Prop where
  | start : ReachableWaiting started
  | step {s : State} {e : Event} :
    ReachableWaiting s → Permitted s e → Waited s e → ReachableWaiting (e.run s)

/-- A user who does not wait: "Yes" to the intro, "Yes" to "Is it an animal?",
"Yes" to "Does it meow?", and "Yes" once more while "Is it... a cat?" is still
being typed and the answer buttons are still there; then "No, you lose." and
teaching. -/
def hastyRound : List Event :=
  [.typed 0, .click .beginGame, .typed 0, .click (.handleAnswer .yes), .typed 0,
    .click (.handleAnswer .yes), .click (.handleAnswer .yes), .typed 0,
    .click .startLearning, .input "a lion" "Does it roar?", .teach .yes]

/-- A user who waits for each text: "Yes" to the intro, "No" to both
questions, "No, you lose." to the guess "a rock", and teaching. -/
def patientRound : List Event :=
  [.typed 0, .click .beginGame, .typed 0, .click (.handleAnswer .no), .typed 0,
    .click (.handleAnswer .no), .typed 0, .click .startLearning,
    .input "a banana" "Is it yellow?", .teach .yes]

/-- Every event of the list is permitted in the state it meets. -/
def allPermitted : List Event → State → Bool
  | [], _ => true
  | e :: es, s => decide (Permitted s e) && allPermitted es (e.run s)

/-- Every event of the list is permitted in the state it meets, and every
click of a button comes when no text is being typed. -/
def allWaited : List Event → State → Bool
  | [], _ => true
  | e :: es, s => decide (Permitted s e) && decide (Waited s e) && allWaited es (e.run s)

/-! ## Decision trees as values -/

/-- A strict binary decision tree: a guess leaf or a question with a yes and
a no subtree. -/
inductive Tree where
  | guess (g : String)
  | question (q : String) (yes no : Tree)
  deriving DecidableEq, Repr

/-- The subtree an answer path leads to, if the path stays inside the tree. -/
def Tree.sub : Tree → List Answer → Option Tree
  | t, [] => some t
  | .guess _, _ :: _ => none
  | .question _ y _, .yes :: p => y.sub p
  | .question _ _ n, .no :: p => n.sub p

/-- The tree with the subtree at a path replaced; every other position keeps
its node. -/
def Tree.replace : Tree → List Answer → Tree → Tree
  | _, [], new => new
  | .guess g, _ :: _, _ => .guess g
  | .question q y n, .yes :: p, new => .question q (y.replace p new) n
  | .question q y n, .no :: p, new => .question q y (n.replace p new)

/-- The number of answers on the longest path from the root to a leaf. -/
def Tree.depth : Tree → Nat
  | .guess _ => 0
  | .question _ y n => max y.depth n.depth + 1

/-- The node learning builds: question `q`, the new object `n` on branch `a`,
the subtree `old` on the opposite branch. -/
def Tree.learned (q : String) (a : Answer) (n : String) (old : Tree) : Tree :=
  match a with
  | .yes => .question q (.guess n) old
  | .no => .question q old (.guess n)

/-- True of a question node. -/
def Tree.isQuestion : Tree → Bool
  | .guess _ => false
  | .question _ _ _ => true

/-- Every guess leaf carries a non-empty string. -/
def Tree.GuessesNonEmpty : Tree → Prop
  | .guess g => g ≠ ""
  | .question _ y n => y.GuessesNonEmpty ∧ n.GuessesNonEmpty

instance Tree.decidableGuessesNonEmpty : (t : Tree) → Decidable t.GuessesNonEmpty
  | .guess g => inferInstanceAs (Decidable (g ≠ ""))
  | .question _ y n =>
    have := Tree.decidableGuessesNonEmpty y
    have := Tree.decidableGuessesNonEmpty n
    inferInstanceAs (Decidable (_ ∧ _))

/-- The JSON text of a tree. -/
def Tree.toJson : Tree → Json
  | .guess g => .obj none (some g) .absent .absent
  | .question q y n => .obj (some q) none y.toJson n.toJson

/-- Reads a JSON text as a strict decision tree, if it is one. -/
def Json.toTree? : Json → Option Tree
  | .obj none (some g) .absent .absent => some (.guess g)
  | .obj (some q) none y n =>
    match y.toTree?, n.toTree? with
    | some ty, some tn => some (.question q ty tn)
    | _, _ => none
  | _ => none

/-- The live tree as a value: the deep content of `decisionTree`, when it is
a strict decision tree. Two live trees are deep-equal when these agree. -/
def liveTree (s : State) : Option Tree :=
  (stringify s.heap.length s.heap s.decisionTree).bind Json.toTree?

/-- The deep content of `initialDecisionTree`. -/
def initialTree (s : State) : Option Tree :=
  (stringify s.heap.length s.heap s.initialDecisionTree).bind Json.toTree?

/-- The object `currentNode` refers to. -/
def currentObj (s : State) : Option Obj := deref s.heap s.currentNode

/-- The question of the node `currentNode` refers to, when it has one. -/
def currentQuestion (s : State) : Option String := (currentObj s).bind Obj.question

/-- The guess of the node `currentNode` refers to, when it has one. -/
def currentGuess (s : State) : Option String := (currentObj s).bind Obj.guess

/-- The tree the literal `initialDecisionTree` writes down. -/
def initialDecisionTree : Tree :=
  .question "Is it an animal?"
    (.question "Does it meow?" (.guess "a cat") (.guess "a dog"))
    (.question "Can you eat it?" (.guess "a carrot") (.guess "a rock"))

/-! ## Trees laid out in the heap -/

/-- A decision tree together with the address of the object of each node. -/
inductive ATree where
  | guess (addr : Nat) (g : String)
  | question (addr : Nat) (q : String) (yes no : ATree)
  deriving DecidableEq, Repr

/-- The address of the root object. -/
def ATree.addr : ATree → Nat
  | .guess a _ => a
  | .question a _ _ _ => a

/-- The tree without the addresses. -/
def ATree.erase : ATree → Tree
  | .guess _ g => .guess g
  | .question _ q y n => .question q y.erase n.erase

/-- The addresses of all nodes. -/
def ATree.addrs : ATree → List Nat
  | .guess a _ => [a]
  | .question a _ y n => a :: (y.addrs ++ n.addrs)

/-- The number of nodes on the longest path from the root to a leaf. -/
def ATree.height : ATree → Nat
  | .guess _ _ => 1
  | .question _ _ y n => max y.height n.height + 1

/-- The subtree an answer path leads to. -/
def ATree.sub : ATree → List Answer → Option ATree
  | t, [] => some t
  | .guess _ _, _ :: _ => none
  | .question _ _ y _, .yes :: p => y.sub p
  | .question _ _ _ n, .no :: p => n.sub p

/-- The tree with the subtree at a path replaced. -/
def ATree.replace : ATree → List Answer → ATree → ATree
  | _, [], new => new
  | .guess a g, _ :: _, _ => .guess a g
  | .question a q y n, .yes :: p, new => .question a q (y.replace p new) n
  | .question a q y n, .no :: p, new => .question a q y (n.replace p new)

/-- The node learning builds, at address `addr`, with the new leaf at
address `leaf`. -/
def ATree.learned (addr : Nat) (q : String) (a : Answer) (leaf : Nat) (n : String)
    (old : ATree) : ATree :=
  match a with
  | .yes => .question addr q (.guess leaf n) old
  | .no => .question addr q old (.guess leaf n)

/-- The heap holds the tree: the object at the address of every guess leaf
has that guess and nothing else, the object of every question node has that
question, no guess, and the two children at the addresses of the subtrees. -/
def Holds (h : Heap) : ATree → Prop
  | .guess a g => h[a]? = some ⟨none, some g, .undefined, .undefined⟩
  | .question a q y n =>
    h[a]? = some ⟨some q, none, .obj y.addr, .obj n.addr⟩ ∧ Holds h y ∧ Holds h n

instance Holds.decidable (h : Heap) : (t : ATree) → Decidable (Holds h t)
  | .guess a g =>
    inferInstanceAs (Decidable (h[a]? = some ⟨none, some g, .undefined, .undefined⟩))
  | .question _ _ y n =>
    have := Holds.decidable h y
    have := Holds.decidable h n
    inferInstanceAs (Decidable (_ ∧ _ ∧ _))

/-- The live tree of `s` is the tree `t`: `decisionTree` refers to the root,
the heap holds `t`, no object serves as two nodes, and every guess string is
non-empty. -/
structure Represents (s : State) (t : ATree) : Prop where
  root : s.decisionTree = .obj t.addr
  holds : Holds s.heap t
  nodup : t.addrs.Nodup
  guesses : t.erase.GuessesNonEmpty

/-- The layout of the live tree right after the script has loaded. -/
def startedTree : ATree :=
  .question 13 "Is it an animal?"
    (.question 9 "Does it meow?" (.guess 7 "a cat") (.guess 8 "a dog"))
    (.question 12 "Can you eat it?" (.guess 10 "a carrot") (.guess 11 "a rock"))

/-- The child of a node on a branch. -/
def ATree.child : ATree → Answer → Option ATree
  | .guess _ _, _ => none
  | .question _ _ y _, .yes => some y
  | .question _ _ _ n, .no => some n

/-- True of a guess leaf. -/
def ATree.isGuess : ATree → Bool
  | .guess _ _ => true
  | .question _ _ _ _ => false

/-- The state with other buttons in `controlsBox` and other texts being typed. -/
def withUI (s : State) (buttons : List Handler) (texts : List Completion) : State :=
  { s with controlsBox := buttons, typing := texts }

/-- The text typed on arriving at a node: the question, or the guess in its
template. -/
def ATree.promptText : ATree → String
  | .guess _ g => guessText (some g)
  | .question _ q _ _ => q

/-- The buttons that follow the text typed on arriving at a node. -/
def ATree.promptButtons : ATree → Completion
  | .guess _ _ => .guessButtons
  | .question _ _ _ _ => .answerButtons

/-- The page starts typing the prompt of the node `d`. -/
def shown (d : ATree) (s : State) : State :=
  typeWriter d.promptText d.promptButtons s

/-- The globals `beginGame` leaves when the root is a question node. -/
def begun (s : State) : State :=
  { s with
    gameOverBoxHidden := true
    currentNode := s.decisionTree
    parentNode := .null
    lastAnswer := none
    gameState := "playing" }

/-- The globals `handleAnswer a` leaves when it steps from the node at address
`parent` to its child `d`: a guess is put to the user, a question is asked. -/
def arrive (s : State) (parent : Nat) (a : Answer) (d : ATree) : State :=
  { s with
    parentNode := .obj parent
    lastAnswer := some a
    currentNode := .obj d.addr
    gameState := if d.isGuess then "guessing" else "playing" }

/-- The state a successful `processLearning a` leaves when `parentNode` is
the object at address `p`. -/
def learnedState (a : Answer) (s : State) (p : Nat) : State :=
  { s with
    heap := Heap.setChild
      ((s.heap ++ [⟨none, some (jsTrim s.userObjectInput), .undefined, .undefined⟩]) ++
        [questionObj (jsTrim s.newQuestionInput) a (.obj s.heap.length) s.currentNode])
      p s.lastAnswer (.obj (s.heap.length + 1))
    userObjectInput := ""
    newQuestionInput := ""
    learningBoxHidden := true
    typing := s.typing ++ [.overButtons] }

/-- The state a teaching round along branch `la` of the node at address
`parent` to its child `d` leaves, the page showing `buttons` and typing
`texts` when the teaching starts. -/
def taught (s : State) (parent : Nat) (la : Answer) (d : ATree) (a : Answer)
    (userObject newQuestion : String) (buttons : List Handler) (texts : List Completion) :
    State :=
  learnedState a
    (typeInputs userObject newQuestion (withUI (arrive (begun s) parent la d) buttons texts))
    parent

/-- The layout of the literal `initialDecisionTree`. -/
def initialLayout : ATree :=
  .question 0 "Is it an animal?"
    (.question 1 "Does it meow?" (.guess 2 "a cat") (.guess 3 "a dog"))
    (.question 4 "Can you eat it?" (.guess 5 "a carrot") (.guess 6 "a rock"))

/-- A reference that does not point into the objects of the literal. -/
def Live (r : Ref) : Prop := ∀ a, r = .obj a → initialHeap.length ≤ a

instance Live.decidable : (r : Ref) → Decidable (Live r)
  | .undefined => isTrue (fun _ h => by cases h)
  | .null => isTrue (fun _ h => by cases h)
  | .obj a =>
    if h : initialHeap.length ≤ a then isTrue (fun _ e => by cases e; exact h)
    else isFalse (fun hl => h (hl a rfl))

/-- The objects of the literal are as written, and nothing the game works
with refers to them: not the globals, not any object outside the literal. -/
structure Sealed (s : State) : Prop where
  init : s.initialDecisionTree = .obj 0
  literal : ∀ i, i < initialHeap.length → s.heap[i]? = initialHeap[i]?
  closed : ∀ i o, initialHeap.length ≤ i → s.heap[i]? = some o → Live o.yes ∧ Live o.no
  tree : Live s.decisionTree
  current : Live s.currentNode
  parent : Live s.parentNode

/-- The node `currentNode` refers to is a question node of the tree. -/
def AtQuestion (s : State) (t : ATree) : Prop :=
  ∃ p c, t.sub p = some c ∧ c.isGuess = false ∧ s.currentNode = .obj c.addr

/-- The node `currentNode` refers to is the child of `parentNode` on branch
`lastAnswer`, both in the tree. -/
def AtChild (s : State) (t : ATree) : Prop :=
  ∃ p parent la d, t.sub p = some parent ∧ parent.child la = some d ∧
    s.parentNode = .obj parent.addr ∧ s.lastAnswer = some la ∧ s.currentNode = .obj d.addr

/-- What holds of every state reached by a user who waits for each text, for
the layout `t` of its live tree: the root is a question; when the answer
buttons are shown or on their way, `currentNode` is a question node of the
tree; when the guess buttons are shown or on their way, or the learning box
is shown, `currentNode` is the child of `parentNode` on branch `lastAnswer`;
while the learning box is shown no button is and no text with buttons is
being typed; `gameOverBox` only resets. -/
structure GameInv (s : State) (t : ATree) : Prop where
  rep : Represents s t
  root : t.isGuess = false
  closed : Sealed s
  answering : s.typing = [] → ∀ a, Handler.handleAnswer a ∈ s.controlsBox → AtQuestion s t
  guessed : s.typing = [] → Handler.startLearning ∈ s.controlsBox → AtChild s t
  answerNext : Completion.answerButtons ∈ s.typing → AtQuestion s t
  guessNext : Completion.guessButtons ∈ s.typing → AtChild s t
  learning : s.learningBoxHidden = false →
    s.controlsBox = [] ∧ s.gameOverBoxHidden = true ∧ s.typing = [] ∧ AtChild s t
  over : ∀ h ∈ s.gameOverBox, h = Handler.resetGameToInitialState

/-! ## Basic facts -/

@[simp]
theorem ATree.addr_guess (a : Nat) (g : String) : (ATree.guess a g).addr = a := rfl

@[simp]
theorem ATree.addr_question (a : Nat) (q : String) (y n : ATree) :
    (ATree.question a q y n).addr = a := rfl

@[simp]
theorem ATree.sub_nil (t : ATree) : t.sub [] = some t := by
  cases t <;> rfl

theorem exists_append_singleton {p : List Answer} (hne : p ≠ []) :
    ∃ p0 la, p = p0 ++ [la] :=
  ⟨p.dropLast, p.getLast hne, (List.dropLast_append_getLast hne).symm⟩

theorem Tree.toTree?_toJson (t : Tree) : t.toJson.toTree? = some t := by
  induction t with
  | guess g => rfl
  | question q y n ihy ihn => simp [Tree.toJson, Json.toTree?, ihy, ihn]

theorem ATree.erase_sub (t : ATree) (p : List Answer) :
    t.erase.sub p = (t.sub p).map ATree.erase := by
  induction p generalizing t with
  | nil => cases t <;> rfl
  | cons a p ih =>
    cases t with
    | guess x g => rfl
    | question x q y n => cases a <;> simp [ATree.erase, Tree.sub, ATree.sub, ih]

theorem ATree.erase_replace (t : ATree) (p : List Answer) (new : ATree) :
    (t.replace p new).erase = t.erase.replace p new.erase := by
  induction p generalizing t with
  | nil => cases t <;> rfl
  | cons a p ih =>
    cases t with
    | guess x g => rfl
    | question x q y n => cases a <;> simp [ATree.erase, Tree.replace, ATree.replace, ih]

theorem ATree.erase_learned (addr : Nat) (q : String) (a : Answer) (leaf : Nat) (n : String)
    (old : ATree) :
    (ATree.learned addr q a leaf n old).erase = Tree.learned q a n old.erase := by
  cases a <;> rfl

theorem Holds.lt_length {h : Heap} {t : ATree} (ht : Holds h t) :
    ∀ x ∈ t.addrs, x < h.length := by
  induction t with
  | guess a g =>
    intro x hx
    simp only [ATree.addrs, List.mem_singleton] at hx
    subst hx
    by_contra hlt
    rw [Holds, List.getElem?_eq_none (by omega)] at ht
    exact absurd ht (by simp)
  | question a q y n ihy ihn =>
    obtain ⟨h0, hy, hn⟩ := ht
    intro x hx
    simp only [ATree.addrs, List.mem_cons, List.mem_append] at hx
    rcases hx with rfl | hx | hx
    · by_contra hlt
      rw [List.getElem?_eq_none (by omega)] at h0
      exact absurd h0 (by simp)
    · exact ihy hy x hx
    · exact ihn hn x hx

theorem Holds.frame {h h' : Heap} {t : ATree} (ht : Holds h t)
    (hsame : ∀ x ∈ t.addrs, h'[x]? = h[x]?) : Holds h' t := by
  induction t with
  | guess a g =>
    rw [Holds, hsame a (by simp [ATree.addrs])]
    exact ht
  | question a q y n ihy ihn =>
    obtain ⟨h0, hy, hn⟩ := ht
    refine ⟨?_, ihy hy ?_, ihn hn ?_⟩
    · rw [hsame a (by simp [ATree.addrs])]
      exact h0
    · intro x hx
      exact hsame x (by simp [ATree.addrs, hx])
    · intro x hx
      exact hsame x (by simp [ATree.addrs, hx])

theorem ATree.addr_mem_addrs (t : ATree) : t.addr ∈ t.addrs := by
  cases t <;> simp [ATree.addr, ATree.addrs]

theorem ATree.height_le_length (t : ATree) : t.height ≤ t.addrs.length := by
  induction t with
  | guess a g => simp [ATree.height, ATree.addrs]
  | question a q y n ihy ihn =>
    simp only [ATree.height, ATree.addrs, List.length_cons, List.length_append]
    omega

theorem stringify_of_holds {h : Heap} {t : ATree} (ht : Holds h t) :
    ∀ fuel, t.height ≤ fuel → stringify fuel h (.obj t.addr) = some t.erase.toJson := by
  induction t with
  | guess a g =>
    intro fuel hf
    cases fuel with
    | zero => simp [ATree.height] at hf
    | succ k =>
      rw [Holds] at ht
      show stringify (k + 1) h (.obj a) = _
      simp only [stringify, ht, ATree.erase, Tree.toJson]
  | question a q y n ihy ihn =>
    intro fuel hf
    obtain ⟨h0, hy, hn⟩ := ht
    cases fuel with
    | zero => simp [ATree.height] at hf
    | succ k =>
      simp only [ATree.height] at hf
      have h1 := ihy hy k (by omega)
      have h2 := ihn hn k (by omega)
      show stringify (k + 1) h (.obj a) = _
      simp only [stringify, h0, h1, h2, ATree.erase, Tree.toJson]

theorem length_le_of_nodup_lt {l : List Nat} {n : Nat} (hd : l.Nodup)
    (hlt : ∀ x ∈ l, x < n) : l.length ≤ n := by
  have hsub : l ⊆ List.range n := fun x hx => List.mem_range.mpr (hlt x hx)
  have := (List.subperm_of_subset hd hsub).length_le
  simpa using this

theorem Represents.height_le {s : State} {t : ATree} (hr : Represents s t) :
    t.height ≤ s.heap.length :=
  le_trans t.height_le_length (length_le_of_nodup_lt hr.nodup hr.holds.lt_length)

theorem Represents.liveTree_eq {s : State} {t : ATree} (hr : Represents s t) :
    liveTree s = some t.erase := by
  simp [liveTree, hr.root, stringify_of_holds hr.holds _ hr.height_le, Tree.toTree?_toJson]

/-! ## Traversal -/

theorem ATree.sub_append_singleton (t : ATree) (p : List Answer) (a : Answer) :
    t.sub (p ++ [a]) = (t.sub p).bind (fun c => c.child a) := by
  induction p generalizing t with
  | nil => cases t <;> cases a <;> simp [ATree.sub, ATree.child]
  | cons b p ih =>
    cases t with
    | guess x g => rfl
    | question x q y n => cases b <;> simp [ATree.sub, ih]

theorem Holds.child {h : Heap} {c d : ATree} {a : Answer} (hc : Holds h c)
    (hd : c.child a = some d) : Holds h d := by
  cases c with
  | guess x g => simp [ATree.child] at hd
  | question x q y n =>
    obtain ⟨_, hy, hn⟩ := hc
    cases a <;> simp only [ATree.child, Option.some.injEq] at hd <;> subst hd <;> assumption

theorem guesses_child {c d : ATree} {a : Answer} (hc : c.erase.GuessesNonEmpty)
    (hd : c.child a = some d) : d.erase.GuessesNonEmpty := by
  cases c with
  | guess x g => simp [ATree.child] at hd
  | question x q y n =>
    obtain ⟨hy, hn⟩ := hc
    cases a <;> simp only [ATree.child, Option.some.injEq] at hd <;> subst hd <;> assumption

theorem Holds.sub {h : Heap} {p : List Answer} :
    ∀ {c d : ATree}, Holds h c → c.sub p = some d → Holds h d := by
  induction p with
  | nil =>
    intro c d hc hd
    cases c <;> simp only [ATree.sub, Option.some.injEq] at hd <;> subst hd <;> exact hc
  | cons a p ih =>
    intro c d hc hd
    cases c with
    | guess x g => simp [ATree.sub] at hd
    | question x q y n =>
      obtain ⟨_, hy, hn⟩ := hc
      cases a
      · exact ih hy hd
      · exact ih hn hd

theorem guesses_sub {p : List Answer} :
    ∀ {c d : ATree}, c.erase.GuessesNonEmpty → c.sub p = some d → d.erase.GuessesNonEmpty := by
  induction p with
  | nil =>
    intro c d hc hd
    cases c <;> simp only [ATree.sub, Option.some.injEq] at hd <;> subst hd <;> exact hc
  | cons a p ih =>
    intro c d hc hd
    cases c with
    | guess x g => simp [ATree.sub] at hd
    | question x q y n =>
      obtain ⟨hy, hn⟩ := hc
      cases a
      · exact ih hy hd
      · exact ih hn hd

theorem guessText_ne (g : Option String) : guessText g ≠ "" := by
  intro h
  have := congrArg String.length h
  simp only [guessText, String.length_append] at this
  have h9 : "Is it... ".length = 9 := by decide
  have h0 : "".length = 0 := by decide
  omega

@[simp]
theorem typeWriter_heap (x : String) (c : Completion) (s : State) :
    (typeWriter x c s).heap = s.heap := by
  unfold typeWriter
  split <;> cases c <;> rfl

@[simp]
theorem typeWriter_initialDecisionTree (x : String) (c : Completion) (s : State) :
    (typeWriter x c s).initialDecisionTree = s.initialDecisionTree := by
  unfold typeWriter
  split <;> cases c <;> rfl

@[simp]
theorem typeWriter_decisionTree (x : String) (c : Completion) (s : State) :
    (typeWriter x c s).decisionTree = s.decisionTree := by
  unfold typeWriter
  split <;> cases c <;> rfl

@[simp]
theorem typeWriter_gameState (x : String) (c : Completion) (s : State) :
    (typeWriter x c s).gameState = s.gameState := by
  unfold typeWriter
  split <;> cases c <;> rfl

@[simp]
theorem typeWriter_currentNode (x : String) (c : Completion) (s : State) :
    (typeWriter x c s).currentNode = s.currentNode := by
  unfold typeWriter
  split <;> cases c <;> rfl

@[simp]
theorem typeWriter_parentNode (x : String) (c : Completion) (s : State) :
    (typeWriter x c s).parentNode = s.parentNode := by
  unfold typeWriter
  split <;> cases c <;> rfl

@[simp]
theorem typeWriter_lastAnswer (x : String) (c : Completion) (s : State) :
    (typeWriter x c s).lastAnswer = s.lastAnswer := by
  unfold typeWriter
  split <;> cases c <;> rfl

@[simp]
theorem typeWriter_learningBoxHidden (x : String) (c : Completion) (s : State) :
    (typeWriter x c s).learningBoxHidden = s.learningBoxHidden := by
  unfold typeWriter
  split <;> cases c <;> rfl

theorem typeWriter_later {x : String} (hx : x ≠ "") (c : Completion) (s : State) :
    typeWriter x c s = { s with typing := s.typing ++ [c] } := by
  simp [typeWriter, hx]

/-- Typing a prompt changes only the buttons shown and the texts being typed. -/
theorem shown_eq_withUI (d : ATree) (s : State) :
    ∃ buttons texts, shown d s = withUI s buttons texts := by
  unfold shown typeWriter
  split
  · cases d <;> exact ⟨_, _, rfl⟩
  · exact ⟨_, _, rfl⟩

theorem represents_typeWriter {s : State} {t : ATree} (hr : Represents s t) (x : String)
    (c : Completion) : Represents (typeWriter x c s) t :=
  ⟨by rw [typeWriter_decisionTree]; exact hr.root,
    by rw [typeWriter_heap]; exact hr.holds, hr.nodup, hr.guesses⟩

/-- One answer at a question node of a tree the heap holds steps to the child
and starts typing its prompt. -/
theorem handleAnswer_step {s : State} {c d : ATree} {a : Answer}
    (hc : Holds s.heap c) (hg : c.erase.GuessesNonEmpty) (hcur : s.currentNode = .obj c.addr)
    (hd : c.child a = some d) : handleAnswer a s = .ok (shown d (arrive s c.addr a d)) := by
  have hdh := hc.child hd
  have hdg := guesses_child hg hd
  cases c with
  | guess x g => simp [ATree.child] at hd
  | question x q y n =>
    obtain ⟨h0, -, -⟩ := hc
    have hget : (Obj.mk (some q) none (.obj y.addr) (.obj n.addr)).get a = .obj d.addr := by
      cases a <;> simp only [ATree.child, Option.some.injEq] at hd <;> subst hd <;> rfl
    cases d with
    | guess z g =>
      rw [Holds] at hdh
      have hne : g ≠ "" := hdg
      simp only [ATree.addr_guess] at hget
      simp [handleAnswer, hcur, deref, h0, hget, hdh, truthy, hne, makeGuess,
        arrive, ATree.isGuess, shown, ATree.promptText, ATree.promptButtons]
    | question z q2 y2 n2 =>
      obtain ⟨hz, -, -⟩ := hdh
      simp only [ATree.addr_question] at hget
      simp [handleAnswer, hcur, deref, h0, hget, hz, truthy, askQuestion,
        arrive, ATree.isGuess, shown, ATree.promptText, ATree.promptButtons]

theorem arrive_withUI (s : State) (x y : Nat) (a b : Answer) (c d : ATree)
    (b1 b2 : List Handler) (t1 t2 : List Completion) :
    withUI (arrive (withUI (arrive s x a c) b1 t1) y b d) b2 t2
      = withUI (arrive s y b d) b2 t2 := rfl

theorem arrive_begun_withUI (s : State) (y : Nat) (b : Answer) (d : ATree)
    (b1 b2 : List Handler) (t1 t2 : List Completion) :
    withUI (arrive (withUI (begun s) b1 t1) y b d) b2 t2
      = withUI (arrive (begun s) y b d) b2 t2 := rfl

theorem withUI_withUI (s : State) (b1 b2 : List Handler) (t1 t2 : List Completion) :
    withUI (withUI s b1 t1) b2 t2 = withUI s b2 t2 := rfl

/-- Answers along a path of a tree the heap holds lead to the node at the end
of the path, with its parent in `parentNode`. -/
theorem answers_walk (p : List Answer) :
    ∀ (c parent d : ATree) (a : Answer) (s : State),
      Holds s.heap c → c.erase.GuessesNonEmpty → s.currentNode = .obj c.addr →
      c.sub p = some parent → parent.child a = some d →
      ∃ buttons texts,
        answers (p ++ [a]) s = .ok (withUI (arrive s parent.addr a d) buttons texts) := by
  induction p with
  | nil =>
    intro c parent d a s hc hg hcur hp hd
    have : c = parent := by
      cases c <;> simp only [ATree.sub, Option.some.injEq] at hp <;> exact hp
    subst this
    obtain ⟨bs, ts, hui⟩ := shown_eq_withUI d (arrive s c.addr a d)
    exact ⟨bs, ts, by simp [answers, handleAnswer_step hc hg hcur hd, hui]⟩
  | cons b p ih =>
    intro c parent d a s hc hg hcur hp hd
    cases c with
    | guess x g => simp [ATree.sub] at hp
    | question x q y n =>
      have key : ∃ e, (ATree.question x q y n).child b = some e ∧ e.sub p = some parent := by
        cases b
        · exact ⟨y, rfl, hp⟩
        · exact ⟨n, rfl, hp⟩
      obtain ⟨e, he, hep⟩ := key
      have hstep := handleAnswer_step hc hg hcur he
      have heh := hc.child he
      have heg := guesses_child hg he
      obtain ⟨bs, ts, hui⟩ := shown_eq_withUI e (arrive s x b e)
      obtain ⟨bs2, ts2, this⟩ := ih e parent d a (withUI (arrive s x b e) bs ts) heh heg rfl hep hd
      rw [arrive_withUI] at this
      refine ⟨bs2, ts2, ?_⟩
      simp only [List.cons_append, answers, hstep, ATree.addr_question, hui]
      exact this

theorem beginGame_question {s : State} {t : ATree} (hr : Represents s t)
    (hq : t.isGuess = false) : beginGame s = .ok (shown t (begun s)) := by
  cases t with
  | guess x g => simp [ATree.isGuess] at hq
  | question x q y n =>
    obtain ⟨h0, -, -⟩ := hr.holds
    have hroot := hr.root
    simp only [ATree.addr_question] at hroot
    simp [beginGame, askQuestion, deref, hroot, h0, begun, shown, ATree.promptText,
      ATree.promptButtons]

/-- A round along a non-empty path of the live tree reaches the node at its
end. -/
theorem playRound_walk {s : State} {t parent d : ATree} {p : List Answer} {a : Answer}
    (hr : Represents s t) (hp : t.sub p = some parent) (hd : parent.child a = some d) :
    ∃ buttons texts,
      playRound (p ++ [a]) s = .ok (withUI (arrive (begun s) parent.addr a d) buttons texts) := by
  have hq : t.isGuess = false := by
    cases t with
    | question x q y n => rfl
    | guess x g =>
      cases p with
      | nil =>
        simp only [ATree.sub, Option.some.injEq] at hp
        subst hp
        simp [ATree.child] at hd
      | cons b p => simp [ATree.sub] at hp
  obtain ⟨bs, ts, hui⟩ := shown_eq_withUI t (begun s)
  obtain ⟨bs2, ts2, hw⟩ := answers_walk p t parent d a (withUI (begun s) bs ts) hr.holds
    hr.guesses hr.root hp hd
  rw [arrive_begun_withUI] at hw
  refine ⟨bs2, ts2, ?_⟩
  simp only [playRound, beginGame_question hr hq, hui]
  exact hw

/-! ## Learning -/

theorem processLearning_ok {a : Answer} {s : State} {p : Nat} (hpar : s.parentNode = .obj p)
    (hn : jsTrim s.userObjectInput ≠ "") (hq : jsTrim s.newQuestionInput ≠ "") :
    processLearning a s = .ok (learnedState a s p) := by
  have hx : "Hmph. Fine. I've 'learned'. Let's play again." ≠ "" := by decide
  simp [processLearning, hn, hq, hpar, Heap.alloc, learnedState, typeWriter_later hx]

theorem setChild_getElem?_other (h : Heap) (pa : Nat) (k : Option Answer) (v : Ref) (x : Nat)
    (hx : x ≠ pa) : (Heap.setChild h pa k v)[x]? = h[x]? := by
  unfold Heap.setChild
  split
  · rw [List.getElem?_set_ne (Ne.symm hx)]
  · rfl

theorem setChild_getElem?_self (h : Heap) (pa : Nat) (a : Answer) (v : Ref) (o : Obj)
    (ho : h[pa]? = some o) : (Heap.setChild h pa (some a) v)[pa]? = some (o.set a v) := by
  have hlt : pa < h.length := by
    by_contra hge
    rw [List.getElem?_eq_none (by omega)] at ho
    exact absurd ho (by simp)
  simp [Heap.setChild, ho, List.getElem?_set, hlt]

theorem ATree.sub_sublist {p : List Answer} :
    ∀ {t c : ATree}, t.sub p = some c → c.addrs.Sublist t.addrs := by
  induction p with
  | nil =>
    intro t c hc
    cases t <;> simp only [ATree.sub, Option.some.injEq] at hc <;> subst hc <;>
      exact List.Sublist.refl _
  | cons a p ih =>
    intro t c hc
    cases t with
    | guess x g => simp [ATree.sub] at hc
    | question x q y n =>
      cases a
      · exact ((ih hc).trans (List.sublist_append_left _ _)).trans (List.sublist_cons_self _ _)
      · exact ((ih hc).trans (List.sublist_append_right _ _)).trans (List.sublist_cons_self _ _)

theorem ATree.child_sublist {c d : ATree} {a : Answer} (hd : c.child a = some d) :
    d.addrs.Sublist (c.addrs.tail) := by
  cases c with
  | guess x g => simp [ATree.child] at hd
  | question x q y n =>
    cases a <;> simp only [ATree.child, Option.some.injEq] at hd <;> subst hd
    · exact List.sublist_append_left _ _
    · exact List.sublist_append_right _ _

theorem ATree.replace_addr (t new : ATree) (a : Answer) (p : List Answer) :
    (t.replace (a :: p) new).addr = t.addr := by
  cases t <;> cases a <;> rfl

/-- Writing a new subtree into the child slot of the node at the end of a
path gives a heap that holds the tree with that child replaced. -/
theorem Holds.replace {h h' : Heap} {new : ATree} {la : Answer} (p : List Answer) :
    ∀ {t parent d : ATree}, Holds h t → t.addrs.Nodup → t.sub p = some parent →
      parent.child la = some d →
      (∀ x ∈ t.addrs, x ≠ parent.addr → h'[x]? = h[x]?) →
      (∀ o, h[parent.addr]? = some o → h'[parent.addr]? = some (o.set la (.obj new.addr))) →
      Holds h' new → Holds h' (t.replace (p ++ [la]) new) := by
  induction p with
  | nil =>
    intro t parent d ht hnd hp hd hother hself hnew
    have : t = parent := by
      cases t <;> simp only [ATree.sub, Option.some.injEq] at hp <;> exact hp
    subst this
    cases t with
    | guess x g => simp [ATree.child] at hd
    | question x q y n =>
      obtain ⟨h0, hy, hn⟩ := ht
      simp only [ATree.addrs, List.nodup_cons, List.mem_append, not_or] at hnd
      have hx := hself _ h0
      simp only [ATree.addr_question] at hx hother
      cases la
      · have e : (ATree.question x q y n).replace ([] ++ [Answer.yes]) new
            = ATree.question x q new n := by cases y <;> rfl
        rw [e]
        refine ⟨hx, hnew, hn.frame ?_⟩
        intro z hz
        exact hother z (by simp [ATree.addrs, hz]) (fun e => hnd.1.2 (e ▸ hz))
      · have e : (ATree.question x q y n).replace ([] ++ [Answer.no]) new
            = ATree.question x q y new := by cases n <;> rfl
        rw [e]
        refine ⟨hx, hy.frame ?_, hnew⟩
        intro z hz
        exact hother z (by simp [ATree.addrs, hz]) (fun e => hnd.1.1 (e ▸ hz))
  | cons b p ih =>
    intro t parent d ht hnd hp hd hother hself hnew
    cases t with
    | guess x g => simp [ATree.sub] at hp
    | question x q y n =>
      obtain ⟨h0, hy, hn⟩ := ht
      simp only [ATree.addrs, List.nodup_cons, List.mem_append, not_or, List.nodup_append] at hnd
      obtain ⟨⟨hxy, hxn⟩, hdy, hdn, hdisj⟩ := hnd
      cases b
      · simp only [ATree.sub] at hp
        have hmem : parent.addr ∈ y.addrs := (ATree.sub_sublist hp).subset parent.addr_mem_addrs
        have hxp : x ≠ parent.addr := fun e => hxy (e ▸ hmem)
        have hroot : h'[x]? = h[x]? := hother x (by simp [ATree.addrs]) hxp
        have ihy := ih hy hdy hp hd
          (fun z hz hne => hother z (by simp [ATree.addrs, hz]) hne) hself hnew
        have e : (ATree.question x q y n).replace (Answer.yes :: p ++ [la]) new
            = ATree.question x q (y.replace (p ++ [la]) new) n := rfl
        have ea : (y.replace (p ++ [la]) new).addr = y.addr := by
          cases p <;> exact ATree.replace_addr _ _ _ _
        rw [e]
        refine ⟨?_, ihy, hn.frame ?_⟩
        · rw [hroot, ea]
          exact h0
        · intro z hz
          exact hother z (by simp [ATree.addrs, hz]) (fun e => hdisj hmem (e ▸ hz))
      · simp only [ATree.sub] at hp
        have hmem : parent.addr ∈ n.addrs := (ATree.sub_sublist hp).subset parent.addr_mem_addrs
        have hxp : x ≠ parent.addr := fun e => hxn (e ▸ hmem)
        have hroot : h'[x]? = h[x]? := hother x (by simp [ATree.addrs]) hxp
        have ihn := ih hn hdn hp hd
          (fun z hz hne => hother z (by simp [ATree.addrs, hz]) hne) hself hnew
        have e : (ATree.question x q y n).replace (Answer.no :: p ++ [la]) new
            = ATree.question x q y (n.replace (p ++ [la]) new) := rfl
        have ea : (n.replace (p ++ [la]) new).addr = n.addr := by
          cases p <;> exact ATree.replace_addr _ _ _ _
        rw [e]
        refine ⟨?_, hy.frame ?_, ihn⟩
        · rw [hroot, ea]
          exact h0
        · intro z hz
          exact hother z (by simp [ATree.addrs, hz]) (fun e => hdisj (e ▸ hz) hmem)

/-- The addresses of the tree after a replacement are those of the old tree
and what the new subtree adds to the subtree it replaces. -/
theorem ATree.addrs_replace_perm {new : ATree} {la : Answer} {extra : List Nat}
    (p : List Answer) :
    ∀ {t parent d : ATree}, t.sub p = some parent → parent.child la = some d →
      new.addrs.Perm (extra ++ d.addrs) →
      (t.replace (p ++ [la]) new).addrs.Perm (extra ++ t.addrs) := by
  induction p with
  | nil =>
    intro t parent d hp hd hnew
    have : t = parent := by
      cases t <;> simp only [ATree.sub, Option.some.injEq] at hp <;> exact hp
    subst this
    cases t with
    | guess x g => simp [ATree.child] at hd
    | question x q y n =>
      rw [List.perm_iff_count] at hnew ⊢
      intro z
      have hz := hnew z
      cases la <;> simp only [ATree.child, Option.some.injEq] at hd <;> subst hd
      · have e : (ATree.question x q y n).replace ([] ++ [Answer.yes]) new
            = ATree.question x q new n := by cases y <;> rfl
        rw [e]
        simp only [ATree.addrs, List.count_cons, List.count_append] at hz ⊢
        omega
      · have e : (ATree.question x q y n).replace ([] ++ [Answer.no]) new
            = ATree.question x q y new := by cases n <;> rfl
        rw [e]
        simp only [ATree.addrs, List.count_cons, List.count_append] at hz ⊢
        omega
  | cons b p ih =>
    intro t parent d hp hd hnew
    cases t with
    | guess x g => simp [ATree.sub] at hp
    | question x q y n =>
      cases b
      · have e : (ATree.question x q y n).replace (Answer.yes :: p ++ [la]) new
            = ATree.question x q (y.replace (p ++ [la]) new) n := rfl
        simp only [ATree.sub] at hp
        have := ih hp hd hnew
        rw [e]
        rw [List.perm_iff_count] at this ⊢
        intro z
        have hz := this z
        simp only [ATree.addrs, List.count_cons, List.count_append] at hz ⊢
        omega
      · have e : (ATree.question x q y n).replace (Answer.no :: p ++ [la]) new
            = ATree.question x q y (n.replace (p ++ [la]) new) := rfl
        simp only [ATree.sub] at hp
        have := ih hp hd hnew
        rw [e]
        rw [List.perm_iff_count] at this ⊢
        intro z
        have hz := this z
        simp only [ATree.addrs, List.count_cons, List.count_append] at hz ⊢
        omega

theorem Tree.guesses_replace {new : Tree} (hnew : new.GuessesNonEmpty) (p : List Answer) :
    ∀ {t : Tree}, t.GuessesNonEmpty → (t.replace p new).GuessesNonEmpty := by
  induction p with
  | nil =>
    intro t _
    cases t <;> exact hnew
  | cons a p ih =>
    intro t ht
    cases t with
    | guess g => exact ht
    | question q y n =>
      obtain ⟨hy, hn⟩ := ht
      cases a
      · exact ⟨ih hy, hn⟩
      · exact ⟨hy, ih hn⟩

theorem ATree.addr_not_mem_child {c d : ATree} {a : Answer} (hnd : c.addrs.Nodup)
    (hd : c.child a = some d) : c.addr ∉ d.addrs := by
  cases c with
  | guess x g => simp [ATree.child] at hd
  | question x q y n =>
    simp only [ATree.addrs, List.nodup_cons, List.mem_append, not_or] at hnd
    cases a <;> simp only [ATree.child, Option.some.injEq] at hd <;> subst hd
    · exact hnd.1.1
    · exact hnd.1.2

/-- After a successful `processLearning` at the child `d` on branch `la` of
the node at path `p`, the live tree is the old one with that child replaced by
the new question node, laid out with two fresh objects. -/
theorem learn_represents {s : State} {t parent d : ATree} {p : List Answer} {la : Answer}
    (a : Answer) (hr : Represents s t) (hp : t.sub p = some parent)
    (hd : parent.child la = some d) (hla : s.lastAnswer = some la)
    (hcur : s.currentNode = .obj d.addr) (hn : jsTrim s.userObjectInput ≠ "") :
    Represents (learnedState a s parent.addr)
      (t.replace (p ++ [la]) (ATree.learned (s.heap.length + 1) (jsTrim s.newQuestionInput) a
        s.heap.length (jsTrim s.userObjectInput) d)) := by
  have hlt := hr.holds.lt_length
  have hpsub := ATree.sub_sublist hp
  have hpa_mem : parent.addr ∈ t.addrs := hpsub.subset parent.addr_mem_addrs
  have hpa_lt : parent.addr < s.heap.length := hlt _ hpa_mem
  have hdsub : d.addrs ⊆ t.addrs := fun z hz =>
    hpsub.subset (List.mem_of_mem_tail ((ATree.child_sublist hd).subset hz))
  have hpa_d : parent.addr ∉ d.addrs := ATree.addr_not_mem_child (hr.nodup.sublist hpsub) hd
  have hold : ∀ x, x < s.heap.length → x ≠ parent.addr →
      (learnedState a s parent.addr).heap[x]? = s.heap[x]? := by
    intro x hx hne
    simp only [learnedState]
    rw [setChild_getElem?_other _ _ _ _ _ hne, List.getElem?_append_left (by simp; omega),
      List.getElem?_append_left hx]
  have hleaf : (learnedState a s parent.addr).heap[s.heap.length]?
      = some ⟨none, some (jsTrim s.userObjectInput), .undefined, .undefined⟩ := by
    simp only [learnedState]
    rw [setChild_getElem?_other _ _ _ _ _ (by omega), List.getElem?_append_left (by simp)]
    simp
  have hquest : (learnedState a s parent.addr).heap[s.heap.length + 1]?
      = some (questionObj (jsTrim s.newQuestionInput) a (.obj s.heap.length) (.obj d.addr)) := by
    simp only [learnedState]
    rw [setChild_getElem?_other _ _ _ _ _ (by omega), hcur,
      List.getElem?_append_right (by simp)]
    simp
  have hdh : Holds (learnedState a s parent.addr).heap d :=
    (hr.holds.sub hp |>.child hd).frame (fun z hz =>
      hold z (hlt z (hdsub hz)) (fun e => hpa_d (e ▸ hz)))
  refine ⟨?_, ?_, ?_, ?_⟩
  · have : ∀ new, (t.replace (p ++ [la]) new).addr = t.addr := by
      intro new
      cases p <;> exact ATree.replace_addr _ _ _ _
    rw [this]
    exact hr.root
  · refine Holds.replace p hr.holds hr.nodup hp hd ?_ ?_ ?_
    · intro x hx hne
      exact hold x (hlt x hx) hne
    · intro o ho
      have h2 : ((s.heap ++ [⟨none, some (jsTrim s.userObjectInput), .undefined, .undefined⟩]) ++
          [questionObj (jsTrim s.newQuestionInput) a (.obj s.heap.length) s.currentNode])[
            parent.addr]? = some o := by
        rw [List.getElem?_append_left (by simp; omega), List.getElem?_append_left hpa_lt]
        exact ho
      simp only [learnedState, hla]
      rw [setChild_getElem?_self _ _ _ _ _ h2]
      cases a <;> rfl
    · cases a
      · exact ⟨hquest, hleaf, hdh⟩
      · exact ⟨hquest, hdh, hleaf⟩
  · have hperm : (ATree.learned (s.heap.length + 1) (jsTrim s.newQuestionInput) a s.heap.length
        (jsTrim s.userObjectInput) d).addrs.Perm ([s.heap.length + 1, s.heap.length] ++ d.addrs) := by
      rw [List.perm_iff_count]
      intro z
      cases a
      · simp only [ATree.learned, ATree.addrs, List.count_cons, List.count_append,
          List.count_nil, List.cons_append, List.nil_append]
      · simp only [ATree.learned, ATree.addrs, List.count_cons, List.count_append,
          List.count_nil, List.cons_append, List.nil_append]
        omega
    rw [(ATree.addrs_replace_perm p hp hd hperm).nodup_iff]
    simp only [List.cons_append, List.nil_append, List.nodup_cons, List.mem_cons, not_or]
    refine ⟨⟨by omega, fun hmem => ?_⟩, fun hmem => ?_, hr.nodup⟩
    · exact absurd (hlt _ hmem) (by omega)
    · exact absurd (hlt _ hmem) (by omega)
  · rw [ATree.erase_replace, ATree.erase_learned]
    refine Tree.guesses_replace ?_ _ hr.guesses
    have hdg := guesses_child (guesses_sub hr.guesses hp) hd
    cases a
    · exact ⟨hn, hdg⟩
    · exact ⟨hdg, hn⟩

theorem Represents.of_eq {s s' : State} {t : ATree} (hr : Represents s t)
    (hh : s'.heap = s.heap) (hd : s'.decisionTree = s.decisionTree) : Represents s' t :=
  ⟨hd ▸ hr.root, hh ▸ hr.holds, hr.nodup, hr.guesses⟩

theorem ATree.sub_of_erase_sub {t : ATree} {p : List Answer} {u : Tree}
    (h : t.erase.sub p = some u) : ∃ d, t.sub p = some d ∧ d.erase = u := by
  rw [ATree.erase_sub] at h
  cases hs : t.sub p with
  | none => simp [hs] at h
  | some d =>
    rw [hs] at h
    exact ⟨d, rfl, by simpa using h⟩

theorem ATree.sub_split {t d : ATree} {p : List Answer} {a : Answer}
    (h : t.sub (p ++ [a]) = some d) : ∃ parent, t.sub p = some parent ∧ parent.child a = some d := by
  rw [ATree.sub_append_singleton] at h
  cases hs : t.sub p with
  | none => simp [hs] at h
  | some c =>
    rw [hs] at h
    exact ⟨c, rfl, h⟩

theorem learnedState_heap_other (a : Answer) (s : State) (pa x : Nat)
    (hx : x < s.heap.length) (hne : x ≠ pa) : (learnedState a s pa).heap[x]? = s.heap[x]? := by
  simp only [learnedState]
  rw [setChild_getElem?_other _ _ _ _ _ hne, List.getElem?_append_left (by simp; omega),
    List.getElem?_append_left hx]

/-- A teaching round along a non-empty path of the live tree succeeds and
leaves the tree with the node at the end of the path replaced. -/
theorem teachRound_represents {s : State} {t parent d : ATree} {p : List Answer}
    {la : Answer} (a : Answer) {userObject newQuestion : String}
    (hr : Represents s t) (hp : t.sub p = some parent) (hd : parent.child la = some d)
    (hn : jsTrim userObject ≠ "") (hq : jsTrim newQuestion ≠ "") :
    ∃ buttons texts,
      playRound (p ++ [la]) s
        = .ok (withUI (arrive (begun s) parent.addr la d) buttons texts) ∧
      teachRound (p ++ [la]) a userObject newQuestion s
        = .ok (taught s parent.addr la d a userObject newQuestion buttons texts) ∧
      Represents (taught s parent.addr la d a userObject newQuestion buttons texts)
        (t.replace (p ++ [la]) (ATree.learned (s.heap.length + 1) (jsTrim newQuestion) a
          s.heap.length (jsTrim userObject) d)) := by
  obtain ⟨bs, ts, hwalk⟩ := playRound_walk hr hp hd
  refine ⟨bs, ts, hwalk, ?_, ?_⟩
  · simp only [teachRound, hwalk]
    exact processLearning_ok (s := typeInputs userObject newQuestion
      (withUI (arrive (begun s) parent.addr la d) bs ts)) rfl hn hq
  · have hr1 : Represents (typeInputs userObject newQuestion
        (withUI (arrive (begun s) parent.addr la d) bs ts)) t := hr.of_eq rfl rfl
    exact learn_represents a hr1 hp hd rfl rfl hn

theorem ATree.sub_replace_append {p : List Answer} (q : List Answer) (new : ATree) :
    ∀ {t parent : ATree}, t.sub p = some parent →
      (t.replace (p ++ q) new).sub p = some (parent.replace q new) := by
  induction p with
  | nil =>
    intro t parent hp
    have : t = parent := by
      cases t <;> simp only [ATree.sub, Option.some.injEq] at hp <;> exact hp
    subst this
    simp
  | cons b p ih =>
    intro t parent hp
    cases t with
    | guess x g => simp [ATree.sub] at hp
    | question x y n m =>
      cases b
      · exact ih hp
      · exact ih hp

theorem ATree.child_replace_singleton {parent d : ATree} {la : Answer} (new : ATree)
    (hd : parent.child la = some d) : (parent.replace [la] new).child la = some new := by
  cases parent with
  | guess x g => simp [ATree.child] at hd
  | question x q y n => cases la <;> simp [ATree.replace, ATree.child]

theorem ATree.child_learned (addr : Nat) (q : String) (a : Answer) (leaf : Nat) (n : String)
    (old : ATree) : (ATree.learned addr q a leaf n old).child a = some (.guess leaf n) ∧
      (ATree.learned addr q a leaf n old).child a.opposite = some old := by
  cases a <;> exact ⟨rfl, rfl⟩

theorem currentGuess_of_holds {s : State} {a : Nat} {g : String}
    (h : Holds s.heap (.guess a g)) (hc : s.currentNode = .obj a) :
    currentGuess s = some g ∧ currentQuestion s = none := by
  rw [Holds] at h
  simp [currentGuess, currentQuestion, currentObj, deref, hc, h]

theorem currentQuestion_of_holds {s : State} {a : Nat} {q : String} {y n : ATree}
    (h : Holds s.heap (.question a q y n)) (hc : s.currentNode = .obj a) :
    currentQuestion s = some q ∧ currentGuess s = none := by
  obtain ⟨h0, -, -⟩ := h
  simp [currentGuess, currentQuestion, currentObj, deref, hc, h0]

/-! ## Reset -/

theorem live_undefined : Live .undefined := fun _ h => by cases h

theorem live_null : Live .null := fun _ h => by cases h

theorem live_obj {a : Nat} (h : initialHeap.length ≤ a) : Live (.obj a) :=
  fun _ e => by cases e; exact h

theorem Sealed.length_le {s : State} (hs : Sealed s) : initialHeap.length ≤ s.heap.length := by
  have h6 := hs.literal 6 (by decide)
  have h7 : initialHeap.length = 7 := rfl
  by_contra hlt
  rw [List.getElem?_eq_none (by omega)] at h6
  exact absurd h6 (by decide)

/-- What `handleAnswer` can change. -/
theorem handleAnswer_frame (a : Answer) (s : State) :
    (handleAnswer a s).state.heap = s.heap ∧
    (handleAnswer a s).state.initialDecisionTree = s.initialDecisionTree ∧
    (handleAnswer a s).state.decisionTree = s.decisionTree ∧
    (handleAnswer a s).state.parentNode = s.currentNode ∧
    (handleAnswer a s).state.lastAnswer = some a ∧
    ((handleAnswer a s).state.currentNode = s.currentNode ∨
      ∃ o, deref s.heap s.currentNode = some o ∧
        (handleAnswer a s).state.currentNode = o.get a) := by
  unfold handleAnswer
  cases h1 : deref s.heap s.currentNode with
  | none => simp [Outcome.state, h1]
  | some o =>
    cases h2 : deref s.heap (o.get a) with
    | none => simp [Outcome.state, h1, h2]
    | some c =>
      by_cases hg : truthy c.guess = true
      · simp [Outcome.state, h1, h2, hg, makeGuess]
      · cases hq : c.question <;> simp [Outcome.state, h1, h2, hg, askQuestion, hq]

/-- What `beginGame` can change. -/
theorem beginGame_frame (s : State) :
    (beginGame s).state.heap = s.heap ∧
    (beginGame s).state.initialDecisionTree = s.initialDecisionTree ∧
    (beginGame s).state.decisionTree = s.decisionTree ∧
    (beginGame s).state.parentNode = .null ∧
    (beginGame s).state.lastAnswer = none ∧
    (beginGame s).state.currentNode = s.decisionTree := by
  unfold beginGame askQuestion
  cases h1 : deref s.heap s.decisionTree with
  | none => simp [Outcome.state, h1]
  | some o => cases hq : o.question <;> simp [Outcome.state, h1, hq]

theorem Sealed.after_handleAnswer {s : State} (hs : Sealed s) (a : Answer) :
    Sealed (handleAnswer a s).state := by
  obtain ⟨hh, hi, hd, hp, -, hc⟩ := handleAnswer_frame a s
  refine ⟨hi ▸ hs.init, hh ▸ hs.literal, hh ▸ hs.closed, hd ▸ hs.tree, ?_, hp ▸ hs.current⟩
  rcases hc with hc | ⟨o, ho, hc⟩
  · exact hc ▸ hs.current
  · rw [hc]
    cases hcur : s.currentNode with
    | undefined => simp [hcur, deref] at ho
    | null => simp [hcur, deref] at ho
    | obj c =>
      rw [hcur] at ho
      have := hs.closed c o (hs.current c hcur) ho
      cases a
      · exact this.1
      · exact this.2

theorem Sealed.after_beginGame {s : State} (hs : Sealed s) : Sealed (beginGame s).state := by
  obtain ⟨hh, hi, hd, hp, -, hc⟩ := beginGame_frame s
  exact ⟨hi ▸ hs.init, hh ▸ hs.literal, hh ▸ hs.closed, hd ▸ hs.tree, hc ▸ hs.tree,
    hp ▸ live_null⟩

theorem setChild_getElem? (h : Heap) (pa : Nat) (k : Option Answer) (v : Ref) (x : Nat) :
    (Heap.setChild h pa k v)[x]? = h[x]? ∨
      ∃ a o, k = some a ∧ x = pa ∧ h[pa]? = some o ∧
        (Heap.setChild h pa k v)[x]? = some (o.set a v) := by
  by_cases hx : x = pa
  · subst hx
    cases k with
    | none => exact Or.inl (by simp [Heap.setChild])
    | some a =>
      cases ho : h[x]? with
      | none => exact Or.inl (by simp [Heap.setChild, ho])
      | some o => exact Or.inr ⟨a, o, rfl, rfl, rfl, setChild_getElem?_self h x a v o ho⟩
  · exact Or.inl (setChild_getElem?_other h pa k v x hx)

theorem getElem?_append_two {h : Heap} {o1 o2 o : Obj} {i : Nat}
    (hi : ((h ++ [o1]) ++ [o2])[i]? = some o) : h[i]? = some o ∨ o = o1 ∨ o = o2 := by
  rw [List.append_assoc] at hi
  by_cases hlt : i < h.length
  · rw [List.getElem?_append_left hlt] at hi
    exact Or.inl hi
  · rw [List.getElem?_append_right (by omega)] at hi
    have := List.getElem?_mem hi
    simp only [List.singleton_append, List.mem_cons, List.mem_singleton, List.not_mem_nil,
      or_false] at this
    exact Or.inr this

theorem Sealed.of_fields {s : State} (hs : Sealed s) (s' : State) (h1 : s'.heap = s.heap)
    (h2 : s'.initialDecisionTree = s.initialDecisionTree)
    (h3 : s'.decisionTree = s.decisionTree) (h4 : s'.currentNode = s.currentNode)
    (h5 : s'.parentNode = s.parentNode) : Sealed s' :=
  ⟨h2 ▸ hs.init, h1 ▸ hs.literal, h1 ▸ hs.closed, h3 ▸ hs.tree, h4 ▸ hs.current,
    h5 ▸ hs.parent⟩

theorem validation_is_atomic_aux (a : Answer) (s : State)
    (h : jsTrim s.userObjectInput = "" ∨ jsTrim s.newQuestionInput = "") :
    processLearning a s = .fail .validation s := by
  simp [processLearning, h]

theorem processLearning_no_parent {a : Answer} {s : State}
    (hpar : ∀ p, s.parentNode ≠ .obj p)
    (hn : jsTrim s.userObjectInput ≠ "") (hq : jsTrim s.newQuestionInput ≠ "") :
    processLearning a s = .fail .typeError { s with
      heap := (s.heap ++ [⟨none, some (jsTrim s.userObjectInput), .undefined, .undefined⟩]) ++
        [questionObj (jsTrim s.newQuestionInput) a (.obj s.heap.length) s.currentNode] } := by
  cases hp : s.parentNode with
  | obj p => exact absurd hp (hpar p)
  | undefined => simp [processLearning, hn, hq, hp, Heap.alloc]
  | null => simp [processLearning, hn, hq, hp, Heap.alloc]

theorem Sealed.after_processLearning {s : State} (hs : Sealed s) (a : Answer) :
    Sealed (processLearning a s).state := by
  have hlen := hs.length_le
  by_cases hv : jsTrim s.userObjectInput = "" ∨ jsTrim s.newQuestionInput = ""
  · rw [validation_is_atomic_aux a s hv]
    exact hs
  · rw [not_or] at hv
    have hleaf : Live (Ref.undefined) ∧ Live (Ref.undefined) := ⟨live_undefined, live_undefined⟩
    have hq : Live (questionObj (jsTrim s.newQuestionInput) a (.obj s.heap.length)
          s.currentNode).yes ∧
        Live (questionObj (jsTrim s.newQuestionInput) a (.obj s.heap.length)
          s.currentNode).no := by
      cases a
      · exact ⟨live_obj hlen, hs.current⟩
      · exact ⟨hs.current, live_obj hlen⟩
    have hclosed2 : ∀ i o, initialHeap.length ≤ i →
        ((s.heap ++ [⟨none, some (jsTrim s.userObjectInput), .undefined, .undefined⟩]) ++
          [questionObj (jsTrim s.newQuestionInput) a (.obj s.heap.length) s.currentNode])[i]?
          = some o → Live o.yes ∧ Live o.no := by
      intro i o hi ho
      rcases getElem?_append_two ho with h1 | rfl | rfl
      · exact hs.closed i o hi h1
      · exact hleaf
      · exact hq
    have hlit2 : ∀ i, i < initialHeap.length →
        ((s.heap ++ [⟨none, some (jsTrim s.userObjectInput), .undefined, .undefined⟩]) ++
          [questionObj (jsTrim s.newQuestionInput) a (.obj s.heap.length) s.currentNode])[i]?
          = initialHeap[i]? := by
      intro i hi
      rw [List.getElem?_append_left (by simp; omega), List.getElem?_append_left (by omega)]
      exact hs.literal i hi
    by_cases hp : ∃ pa, s.parentNode = .obj pa
    · obtain ⟨pa, hp⟩ := hp
      have hpa : initialHeap.length ≤ pa := hs.parent pa hp
      rw [processLearning_ok hp hv.1 hv.2]
      refine ⟨hs.init, ?_, ?_, hs.tree, hs.current, hs.parent⟩
      · intro i hi
        show (Heap.setChild _ pa s.lastAnswer _)[i]? = _
        rw [setChild_getElem?_other _ _ _ _ _ (by omega)]
        exact hlit2 i hi
      · intro i o hi ho
        have ho' : (Heap.setChild
            ((s.heap ++ [Obj.mk none (some (jsTrim s.userObjectInput)) .undefined .undefined]) ++
              [questionObj (jsTrim s.newQuestionInput) a (.obj s.heap.length) s.currentNode])
            pa s.lastAnswer (.obj (s.heap.length + 1)))[i]? = some o := ho
        rcases setChild_getElem?
          ((s.heap ++ [Obj.mk none (some (jsTrim s.userObjectInput)) .undefined .undefined]) ++
            [questionObj (jsTrim s.newQuestionInput) a (.obj s.heap.length) s.currentNode])
          pa s.lastAnswer (.obj (s.heap.length + 1)) i
          with h1 | ⟨b, o2, -, rfl, ho2, h1⟩
        · rw [h1] at ho'
          exact hclosed2 i o hi ho'
        · rw [h1] at ho'
          cases ho'
          have hl := hclosed2 _ o2 hi ho2
          have hnew : Live (.obj (s.heap.length + 1)) := live_obj (by omega)
          cases b
          · exact ⟨hnew, hl.2⟩
          · exact ⟨hl.1, hnew⟩
    · rw [processLearning_no_parent (fun p e => hp ⟨p, e⟩) hv.1 hv.2]
      exact ⟨hs.init, hlit2, hclosed2, hs.tree, hs.current, hs.parent⟩

theorem parse_obj (q g : Option String) (y n : Json) (h : Heap) :
    parse (.obj q g y n) h
      = ((parse n (parse y h).1).1 ++ [⟨q, g, (parse y h).2, (parse n (parse y h).1).2⟩],
          .obj (parse n (parse y h).1).1.length) := rfl

/-- Parsing the text of a tree appends a fresh layout of that tree. -/
theorem parse_holds (t : Tree) : ∀ h : Heap, ∃ lay : ATree, ∃ ext : Heap,
    (parse t.toJson h).2 = .obj lay.addr ∧ lay.erase = t ∧ (parse t.toJson h).1 = h ++ ext ∧
    Holds (h ++ ext) lay ∧ lay.addrs.Nodup ∧ (∀ x ∈ lay.addrs, h.length ≤ x) ∧
    (∀ o ∈ ext, (∀ a, o.yes = .obj a → h.length ≤ a) ∧ (∀ a, o.no = .obj a → h.length ≤ a)) := by
  induction t with
  | guess g =>
    intro h
    refine ⟨.guess h.length g, [⟨none, some g, .undefined, .undefined⟩], rfl, rfl, rfl, ?_,
      by simp [ATree.addrs], by simp [ATree.addrs], ?_⟩
    · simp [Holds]
    · intro o ho
      simp only [List.mem_singleton] at ho
      subst ho
      exact ⟨fun a e => (by cases e), fun a e => (by cases e)⟩
  | question q y n ihy ihn =>
    intro h
    obtain ⟨ly, ey, hy2, hye, hy1, hyh, hynd, hylo, hyext⟩ := ihy h
    obtain ⟨ln, en, hn2, hne, hn1, hnh, hnnd, hnlo, hnext⟩ := ihn (h ++ ey)
    have hylt := hyh.lt_length
    have hnlt := hnh.lt_length
    simp only [List.length_append] at hylt hnlt hnlo
    refine ⟨.question (h ++ ey ++ en).length q ly ln,
      ey ++ en ++ [⟨some q, none, .obj ly.addr, .obj ln.addr⟩], ?_, ?_, ?_, ?_, ?_, ?_, ?_⟩
    · simp only [Tree.toJson, parse_obj, hy1, hn1, ATree.addr_question]
    · simp only [ATree.erase, hye, hne]
    · simp only [Tree.toJson, parse_obj, hy1, hn1, hy2, hn2, List.append_assoc]
    · refine ⟨?_, hyh.frame ?_, hnh.frame ?_⟩
      · rw [show h ++ (ey ++ en ++ [⟨some q, none, .obj ly.addr, .obj ln.addr⟩])
          = (h ++ ey ++ en) ++ [⟨some q, none, .obj ly.addr, .obj ln.addr⟩] by
            simp [List.append_assoc]]
        exact List.getElem?_concat_length _ _
      · intro x hx
        have := hylt x hx
        rw [show h ++ (ey ++ en ++ [⟨some q, none, .obj ly.addr, .obj ln.addr⟩])
          = (h ++ ey) ++ (en ++ [⟨some q, none, .obj ly.addr, .obj ln.addr⟩]) by
            simp [List.append_assoc]]
        exact List.getElem?_append_left (by simp only [List.length_append]; omega)
      · intro x hx
        have := hnlt x hx
        rw [show h ++ (ey ++ en ++ [⟨some q, none, .obj ly.addr, .obj ln.addr⟩])
          = (h ++ ey ++ en) ++ [⟨some q, none, .obj ly.addr, .obj ln.addr⟩] by
            simp [List.append_assoc]]
        exact List.getElem?_append_left (by simp only [List.length_append]; omega)
    · simp only [ATree.addrs, List.nodup_cons, List.mem_append, not_or, List.nodup_append,
        List.length_append]
      refine ⟨⟨fun hm => ?_, fun hm => ?_⟩, hynd, hnnd, ?_⟩
      · have := hylt _ hm
        omega
      · have := hnlt _ hm
        omega
      · intro x hxy hxn
        have h1 := hylt x hxy
        have h2 := hnlo x hxn
        omega
    · intro x hx
      simp only [ATree.addrs, List.mem_cons, List.mem_append, List.length_append] at hx
      rcases hx with rfl | hx | hx
      · omega
      · exact hylo x hx
      · have := hnlo x hx
        omega
    · intro o ho
      simp only [List.mem_append, List.mem_singleton] at ho
      rcases ho with (ho | ho) | rfl
      · exact hyext o ho
      · have := hnext o ho
        simp only [List.length_append] at this
        exact ⟨fun a e => (by have := this.1 a e; omega), fun a e => (by have := this.2 a e; omega)⟩
      · exact ⟨fun a e => (by cases e; exact hylo _ ly.addr_mem_addrs),
          fun a e => (by cases e; have := hnlo _ ln.addr_mem_addrs; omega)⟩

theorem holds_initialLayout {s : State} (hs : Sealed s) : Holds s.heap initialLayout := by
  have h0 : Holds initialHeap initialLayout := by decide
  refine h0.frame (fun x hx => hs.literal x ?_)
  have : ∀ x ∈ initialLayout.addrs, x < initialHeap.length := by decide
  exact this x hx

theorem ATree.isGuess_of_erase {t : ATree} (h : t.erase.isQuestion = true) :
    t.isGuess = false := by
  cases t with
  | guess x g => simp [ATree.erase, Tree.isQuestion] at h
  | question x q y n => rfl

theorem getElem?_append_closed {h ext : Heap} {P : Obj → Prop} {n : Nat}
    (hh : ∀ i o, n ≤ i → h[i]? = some o → P o) (he : ∀ o ∈ ext, P o) :
    ∀ i o, n ≤ i → (h ++ ext)[i]? = some o → P o := by
  intro i o hi ho
  by_cases hlt : i < h.length
  · rw [List.getElem?_append_left hlt] at ho
    exact hh i o hi ho
  · rw [List.getElem?_append_right (by omega)] at ho
    exact he o (List.getElem?_mem ho)

/-- Reset succeeds in every sealed state and leaves a fresh layout of the
tree of the literal as the live tree. -/
theorem reset_spec {s : State} (hs : Sealed s) : ∃ lay : ATree, ∃ ext : Heap,
    resetGameToInitialState s
      = .ok (shown lay (begun { s with heap := s.heap ++ ext, decisionTree := .obj lay.addr })) ∧
    lay.erase = initialDecisionTree ∧
    Represents (begun { s with heap := s.heap ++ ext, decisionTree := .obj lay.addr }) lay ∧
    Sealed (begun { s with heap := s.heap ++ ext, decisionTree := .obj lay.addr }) := by
  have hlen := hs.length_le
  have h7 : initialHeap.length = 7 := rfl
  have hstr : stringify s.heap.length s.heap s.initialDecisionTree
      = some initialDecisionTree.toJson := by
    rw [hs.init]
    have := stringify_of_holds (holds_initialLayout hs) s.heap.length
      (by simp only [initialLayout, ATree.height]; omega)
    exact this
  obtain ⟨lay, ext, h2, he, h1, hh, hnd, hlo, hext⟩ := parse_holds initialDecisionTree s.heap
  have hrep : Represents (begun { s with heap := s.heap ++ ext, decisionTree := .obj lay.addr })
      lay := ⟨rfl, hh, hnd, by rw [he]; decide⟩
  have hrep0 : Represents { s with heap := s.heap ++ ext, decisionTree := .obj lay.addr } lay :=
    ⟨rfl, hh, hnd, by rw [he]; decide⟩
  have hq : lay.isGuess = false := ATree.isGuess_of_erase (by rw [he]; rfl)
  refine ⟨lay, ext, ?_, he, hrep, ?_⟩
  · have hpar : parse initialDecisionTree.toJson s.heap = (s.heap ++ ext, .obj lay.addr) := by
      rw [← h1, ← h2]
    have hj : ∃ q g y n, initialDecisionTree.toJson = .obj q g y n := ⟨_, _, _, _, rfl⟩
    obtain ⟨q, g, y, n, hj⟩ := hj
    have hrt : jsonRoundTrip s.heap s.initialDecisionTree = some (s.heap ++ ext, .obj lay.addr) := by
      simp only [jsonRoundTrip, hstr]
      rw [hj] at hpar ⊢
      simp only [hpar]
    simp only [resetGameToInitialState, hrt]
    exact beginGame_question hrep0 hq
  · refine ⟨hs.init, ?_, ?_, ?_, ?_, live_null⟩
    · intro i hi
      show (s.heap ++ ext)[i]? = _
      rw [List.getElem?_append_left (by omega)]
      exact hs.literal i hi
    · show ∀ i o, initialHeap.length ≤ i → (s.heap ++ ext)[i]? = some o → Live o.yes ∧ Live o.no
      refine getElem?_append_closed hs.closed (fun o ho => ?_)
      have := hext o ho
      exact ⟨fun a e => le_trans hlen (this.1 a e), fun a e => le_trans hlen (this.2 a e)⟩
    · exact live_obj (le_trans hlen (hlo _ lay.addr_mem_addrs))
    · exact live_obj (le_trans hlen (hlo _ lay.addr_mem_addrs))

theorem sealed_typeWriter {s : State} (hs : Sealed s) (x : String) (c : Completion) :
    Sealed (typeWriter x c s) :=
  hs.of_fields _ (typeWriter_heap _ _ _) (typeWriter_initialDecisionTree _ _ _)
    (typeWriter_decisionTree _ _ _) (typeWriter_currentNode _ _ _) (typeWriter_parentNode _ _ _)

theorem Sealed.after_completion {s : State} (hs : Sealed s) (c : Completion) :
    Sealed (c.run s) := by
  cases c <;> exact hs.of_fields _ rfl rfl rfl rfl rfl

theorem Sealed.after_event {s : State} (hs : Sealed s) (e : Event) : Sealed (e.run s) := by
  cases e with
  | click h =>
    cases h with
    | beginGame => exact hs.after_beginGame
    | maybeLater => exact hs
    | handleAnswer a => exact hs.after_handleAnswer a
    | handleCorrectGuess =>
      show Sealed (typeWriter "Heh heh heh... I always win. Play again?" .overButtons
        { s with gameState := "end" })
      exact sealed_typeWriter (hs.of_fields { s with gameState := "end" }
        rfl rfl rfl rfl rfl) _ _
    | startLearning => exact hs.of_fields _ rfl rfl rfl rfl rfl
    | resetGameToInitialState =>
      obtain ⟨lay, ext, hrun, -, -, hsealed⟩ := reset_spec hs
      simp only [Event.run, Handler.run, hrun, Outcome.state]
      exact sealed_typeWriter hsealed _ _
  | teach a => exact hs.after_processLearning a
  | input u q => exact hs.of_fields _ rfl rfl rfl rfl rfl
  | typed i =>
    cases h : s.typing[i]? with
    | none =>
      simp only [Event.run, h]
      exact hs
    | some c =>
      simp only [Event.run, h]
      exact (hs.of_fields { s with typing := s.typing.eraseIdx i }
        rfl rfl rfl rfl rfl).after_completion c

theorem Sealed.after_events (es : List Event) :
    ∀ {s : State}, Sealed s → Sealed (runEvents es s) := by
  induction es with
  | nil => exact fun hs => hs
  | cons e es ih => exact fun hs => ih (hs.after_event e)

theorem started_heap : started.heap = initialHeap ++ started.heap.drop initialHeap.length := by
  decide

theorem sealed_started : Sealed started := by
  refine ⟨rfl, by decide, ?_, by decide, by decide, by decide⟩
  rw [started_heap]
  refine getElem?_append_closed (P := fun o => Live o.yes ∧ Live o.no) ?_ (by decide)
  intro i o hi ho
  rw [List.getElem?_eq_none hi] at ho
  cases ho

/-! ## Termination of the traversal -/

theorem firstAnswers_zero (f : Nat → Answer) : firstAnswers f 0 = [] := rfl

theorem firstAnswers_succ (f : Nat → Answer) (k : Nat) :
    firstAnswers f (k + 1) = firstAnswers f k ++ [f k] := by
  simp [firstAnswers, List.range_succ]

theorem firstAnswers_succ_cons (f : Nat → Answer) (k : Nat) :
    firstAnswers f (k + 1) = f 0 :: firstAnswers (fun i => f (i + 1)) k := by
  simp [firstAnswers, List.range_succ_eq_map, List.map_map, Function.comp_def]

theorem ATree.sub_cons (t : ATree) (a : Answer) (p : List Answer) :
    t.sub (a :: p) = (t.child a).bind (fun c => c.sub p) := by
  cases t <;> cases a <;> rfl

theorem ATree.depth_child {t c : ATree} {a : Answer} (hc : t.child a = some c) :
    c.erase.depth + 1 ≤ t.erase.depth := by
  cases t with
  | guess x g => simp [ATree.child] at hc
  | question x q y n =>
    cases a <;> simp only [ATree.child, Option.some.injEq] at hc <;> subst hc <;>
      simp only [ATree.erase, Tree.depth] <;> omega

/-- Following any supply of answers from a question node, the path reaches a
guess leaf after at least one and at most depth-many answers, and passes only
question nodes before. -/
theorem ATree.descend (t : ATree) : ∀ f : Nat → Answer, t.isGuess = false →
    ∃ k, 1 ≤ k ∧ k ≤ t.erase.depth ∧ (∃ z g, t.sub (firstAnswers f k) = some (.guess z g)) ∧
      ∀ j, j < k → ∃ c, t.sub (firstAnswers f j) = some c ∧ c.isGuess = false := by
  have step : ∀ (t c : ATree) (f : Nat → Answer), t.isGuess = false →
      t.child (f 0) = some c →
      (c.isGuess = false → ∃ k, 1 ≤ k ∧ k ≤ c.erase.depth ∧
        (∃ z g, c.sub (firstAnswers (fun i => f (i + 1)) k) = some (.guess z g)) ∧
        ∀ j, j < k → ∃ e, c.sub (firstAnswers (fun i => f (i + 1)) j) = some e ∧
          e.isGuess = false) →
      ∃ k, 1 ≤ k ∧ k ≤ t.erase.depth ∧ (∃ z g, t.sub (firstAnswers f k) = some (.guess z g)) ∧
        ∀ j, j < k → ∃ e, t.sub (firstAnswers f j) = some e ∧ e.isGuess = false := by
    intro t c f ht hc ih
    have hdep := ATree.depth_child hc
    cases hcg : c.isGuess with
    | true =>
      refine ⟨1, le_refl _, by omega, ?_, ?_⟩
      · cases c with
        | question z q y n => simp [ATree.isGuess] at hcg
        | guess z g =>
          refine ⟨z, g, ?_⟩
          rw [firstAnswers_succ_cons, firstAnswers_zero, ATree.sub_cons, hc]
          rfl
      · intro j hj
        have : j = 0 := by omega
        subst this
        exact ⟨t, by simp [firstAnswers_zero], ht⟩
    | false =>
      obtain ⟨k, hk1, hk2, ⟨z, g, hz⟩, hall⟩ := ih hcg
      refine ⟨k + 1, by omega, by omega, ⟨z, g, ?_⟩, ?_⟩
      · rw [firstAnswers_succ_cons, ATree.sub_cons, hc]
        exact hz
      · intro j hj
        cases j with
        | zero => exact ⟨t, by simp [firstAnswers_zero], ht⟩
        | succ j =>
          obtain ⟨e, he, heg⟩ := hall j (by omega)
          refine ⟨e, ?_, heg⟩
          rw [firstAnswers_succ_cons, ATree.sub_cons, hc]
          exact he
  induction t with
  | guess x g =>
    intro f hq
    simp [ATree.isGuess] at hq
  | question x q y n ihy ihn =>
    intro f hq
    cases hf : f 0 with
    | yes => exact step _ y f hq (by rw [hf]; rfl) (ihy _)
    | no => exact step _ n f hq (by rw [hf]; rfl) (ihn _)

theorem answers_append_singleton (p : List Answer) (a : Answer) :
    ∀ s, answers (p ++ [a]) s = match answers p s with
      | .ok s1 => handleAnswer a s1
      | .fail e s1 => .fail e s1 := by
  induction p with
  | nil =>
    intro s
    simp only [List.nil_append, answers]
    cases handleAnswer a s <;> rfl
  | cons b p ih =>
    intro s
    simp only [List.cons_append, answers]
    cases handleAnswer b s with
    | ok s1 => exact ih s1
    | fail e s1 => rfl

theorem playRound_append_singleton (p : List Answer) (a : Answer) (s st : State)
    (h : playRound p s = .ok st) : playRound (p ++ [a]) s = handleAnswer a st := by
  unfold playRound at h ⊢
  cases hb : beginGame s with
  | fail e s1 => simp [hb] at h
  | ok s1 =>
    simp only [hb] at h ⊢
    rw [answers_append_singleton, h]

/-- The state a round has reached at the node `c` at the end of path `p`. -/
theorem playRound_at {s : State} {t c : ATree} {p : List Answer} (hr : Represents s t)
    (hq : t.isGuess = false) (hc : t.sub p = some c) :
    ∃ st, playRound p s = .ok st ∧ st.heap = s.heap ∧ st.currentNode = .obj c.addr ∧
      st.gameState = (if c.isGuess then "guessing" else "playing") := by
  rcases List.eq_nil_or_concat p with rfl | ⟨p0, la, rfl⟩
  · simp only [ATree.sub_nil, Option.some.injEq] at hc
    subst hc
    refine ⟨shown t (begun s), ?_, ?_, ?_, ?_⟩
    · simp [playRound, beginGame_question hr hq, answers]
    · simp [shown, begun]
    · simp only [shown, typeWriter_currentNode]
      exact hr.root
    · simp [shown, begun, hq]
  · rw [List.concat_eq_append] at hc ⊢
    obtain ⟨parent, hpar, hch⟩ := ATree.sub_split hc
    obtain ⟨bs, ts, hwalk⟩ := playRound_walk hr hpar hch
    exact ⟨_, hwalk, rfl, rfl, rfl⟩

/-! ## The invariant of play -/

theorem ATree.isGuess_replace (t new : ATree) (a : Answer) (p : List Answer) :
    (t.replace (a :: p) new).isGuess = t.isGuess := by
  cases t <;> cases a <;> rfl

theorem ATree.child_of_question {c : ATree} (h : c.isGuess = false) (a : Answer) :
    ∃ d, c.child a = some d := by
  cases c with
  | guess x g => simp [ATree.isGuess] at h
  | question x q y n => cases a <;> exact ⟨_, rfl⟩

theorem AtQuestion.transfer {s s' : State} {t : ATree} (h : AtQuestion s t)
    (hc : s'.currentNode = s.currentNode) : AtQuestion s' t := by
  obtain ⟨p, c, h1, h2, h3⟩ := h
  exact ⟨p, c, h1, h2, hc.trans h3⟩

theorem AtChild.carry {s s' : State} {t : ATree} (h : AtChild s t)
    (hc : s'.currentNode = s.currentNode) (hp : s'.parentNode = s.parentNode)
    (hl : s'.lastAnswer = s.lastAnswer) : AtChild s' t := by
  obtain ⟨p, parent, la, d, h1, h2, h3, h4, h5⟩ := h
  exact ⟨p, parent, la, d, h1, h2, hp.trans h3, hl.trans h4, hc.trans h5⟩

theorem GameInv.hidden_of_typing {s : State} {t : ATree} (hi : GameInv s t)
    (hty : s.typing ≠ []) : s.learningBoxHidden = true := by
  cases hl : s.learningBoxHidden with
  | true => rfl
  | false => exact absurd (hi.learning hl).2.2.1 hty

theorem GameInv.hidden_of_click {s : State} {t : ATree} (hi : GameInv s t) {h : Handler}
    (hm : Permitted s (.click h)) : s.learningBoxHidden = true := by
  cases hl : s.learningBoxHidden with
  | true => rfl
  | false =>
    obtain ⟨hc, hg, -, -⟩ := hi.learning hl
    rcases hm with hm | ⟨hm, -⟩
    · rw [hc] at hm
      cases hm
    · rw [hg] at hm
      cases hm

theorem GameInv.mem_controls {s : State} {t : ATree} (hi : GameInv s t) {h : Handler}
    (hm : Permitted s (.click h)) (hne : h ≠ .resetGameToInitialState) : h ∈ s.controlsBox := by
  rcases hm with hm | ⟨-, hm⟩
  · exact hm
  · exact absurd (hi.over _ hm) hne

theorem gameInv_started : GameInv started startedTree := by
  have hty : started.typing = [.introButtons] := by decide
  have hcb : started.controlsBox = [] := by decide
  refine ⟨⟨rfl, by decide, by decide, by decide⟩, rfl, sealed_started, ?_, ?_, ?_, ?_, ?_, ?_⟩
  · intro h
    rw [hty] at h
    cases h
  · intro h
    rw [hty] at h
    cases h
  · intro h
    rw [hty] at h
    simp at h
  · intro h
    rw [hty] at h
    simp at h
  · intro h
    have : ¬ (started.learningBoxHidden = false) := by decide
    exact absurd h this
  · intro h hh
    have : started.gameOverBox = [] := rfl
    rw [this] at hh
    cases hh

/-- A handler that ends by typing a text with buttons to follow keeps the
invariant, when the globals it left fit the buttons. -/
theorem gameInv_typeWriter {s : State} {t : ATree} (x : String) (c : Completion)
    (hr : Represents s t) (hroot : t.isGuess = false) (hseal : Sealed s)
    (hty : s.typing = []) (hl : s.learningBoxHidden = true)
    (hover : ∀ h ∈ s.gameOverBox, h = Handler.resetGameToInitialState)
    (hA : c = .answerButtons → AtQuestion s t) (hG : c = .guessButtons → AtChild s t) :
    GameInv (typeWriter x c s) t := by
  refine ⟨represents_typeWriter hr x c, hroot, sealed_typeWriter hseal x c, ?_, ?_, ?_, ?_, ?_, ?_⟩
  · intro _ a ha
    refine (hA ?_).transfer (typeWriter_currentNode _ _ _)
    unfold typeWriter at ha
    split at ha
    · cases c <;> simp [Completion.run] at ha
      rfl
    · rename_i hx
      have hne : (typeWriter x c s).typing ≠ [] := by simp [typeWriter, hx]
      contradiction
  · intro _ ha
    refine (hG ?_).carry (typeWriter_currentNode _ _ _) (typeWriter_parentNode _ _ _)
      (typeWriter_lastAnswer _ _ _)
    unfold typeWriter at ha
    split at ha
    · cases c <;> simp [Completion.run] at ha
      rfl
    · rename_i hx
      have hne : (typeWriter x c s).typing ≠ [] := by simp [typeWriter, hx]
      contradiction
  · intro ha
    refine (hA ?_).transfer (typeWriter_currentNode _ _ _)
    unfold typeWriter at ha
    split at ha
    · cases c <;> simp [Completion.run, hty] at ha
    · simp only [hty, List.nil_append, List.mem_singleton] at ha
      exact ha.symm
  · intro ha
    refine (hG ?_).carry (typeWriter_currentNode _ _ _) (typeWriter_parentNode _ _ _)
      (typeWriter_lastAnswer _ _ _)
    unfold typeWriter at ha
    split at ha
    · cases c <;> simp [Completion.run, hty] at ha
    · simp only [hty, List.nil_append, List.mem_singleton] at ha
      exact ha.symm
  · intro h
    rw [typeWriter_learningBoxHidden, hl] at h
    cases h
  · intro h hh
    unfold typeWriter at hh
    split at hh
    · cases c
      · exact hover h hh
      · exact hover h hh
      · exact hover h hh
      · simpa [Completion.run] using hh
    · exact hover h hh

theorem GameInv.keep_beginGame {s : State} {t : ATree} (hi : GameInv s t)
    (hty : s.typing = []) (hl : s.learningBoxHidden = true) :
    GameInv (beginGame s).state t := by
  rw [beginGame_question hi.rep hi.root]
  have hq := hi.root
  refine gameInv_typeWriter _ _ (hi.rep.of_eq rfl rfl) hi.root
    ⟨hi.closed.init, hi.closed.literal, hi.closed.closed, hi.closed.tree, hi.closed.tree,
      live_null⟩ hty hl hi.over ?_ ?_
  · intro _
    exact ⟨[], t, t.sub_nil, hi.root, hi.rep.root⟩
  · intro h
    cases t with
    | guess x g => simp [ATree.isGuess] at hq
    | question x q y n => cases h

theorem GameInv.keep_handleAnswer {s : State} {t : ATree} (hi : GameInv s t) (a : Answer)
    (hm : Permitted s (.click (.handleAnswer a))) (hty : s.typing = []) :
    GameInv (handleAnswer a s).state t := by
  have hl := hi.hidden_of_click hm
  have hmem := hi.mem_controls hm (by simp)
  obtain ⟨p, c, hc, hcg, hcur⟩ := hi.answering hty a hmem
  obtain ⟨d, hd⟩ := ATree.child_of_question hcg a
  have hstep := handleAnswer_step (hi.rep.holds.sub hc) (guesses_sub hi.rep.guesses hc) hcur hd
  have hseal := hi.closed.after_handleAnswer a
  rw [hstep] at hseal ⊢
  have hseal2 : Sealed (arrive s c.addr a d) :=
    hseal.of_fields _ (typeWriter_heap _ _ _).symm (typeWriter_initialDecisionTree _ _ _).symm
      (typeWriter_decisionTree _ _ _).symm (typeWriter_currentNode _ _ _).symm
      (typeWriter_parentNode _ _ _).symm
  refine gameInv_typeWriter _ _ (hi.rep.of_eq rfl rfl) hi.root hseal2 hty hl hi.over ?_ ?_
  · intro h
    cases d with
    | guess z g => cases h
    | question z q y n =>
      refine ⟨p ++ [a], .question z q y n, ?_, rfl, rfl⟩
      rw [ATree.sub_append_singleton, hc]
      exact hd
  · intro _
    exact ⟨p, c, a, d, hc, hd, rfl, rfl, rfl⟩

theorem GameInv.keep_processLearning {s : State} {t : ATree} (hi : GameInv s t) (a : Answer)
    (hm : Permitted s (.teach a)) : ∃ t2, GameInv (processLearning a s).state t2 := by
  by_cases hv : jsTrim s.userObjectInput = "" ∨ jsTrim s.newQuestionInput = ""
  · rw [validation_is_atomic_aux a s hv]
    exact ⟨t, hi⟩
  · rw [not_or] at hv
    obtain ⟨-, -, hty, p, parent, la, d, hp, hd, hpar, hla, hcur⟩ := hi.learning hm
    have hrep := learn_represents a hi.rep hp hd hla hcur hv.1
    have hseal := hi.closed.after_processLearning a
    rw [processLearning_ok hpar hv.1 hv.2] at hseal ⊢
    refine ⟨_, hrep, ?_, hseal, ?_, ?_, ?_, ?_, ?_, hi.over⟩
    · have : ∀ new, (t.replace (p ++ [la]) new).isGuess = t.isGuess := by
        intro new
        cases p <;> exact ATree.isGuess_replace _ _ _ _
      rw [this]
      exact hi.root
    · intro h
      simp [Outcome.state, learnedState] at h
    · intro h
      simp [Outcome.state, learnedState] at h
    · intro h
      simp [Outcome.state, learnedState, hty] at h
    · intro h
      simp [Outcome.state, learnedState, hty] at h
    · intro h
      simp [Outcome.state, learnedState] at h

theorem GameInv.keep_completion {s : State} {t : ATree} (hi : GameInv s t) (i : Nat)
    (c : Completion) (hc : s.typing[i]? = some c) :
    GameInv (c.run { s with typing := s.typing.eraseIdx i }) t := by
  have hmem : c ∈ s.typing := List.getElem?_mem hc
  have hl := hi.hidden_of_typing (List.ne_nil_of_mem hmem)
  have hsub : ∀ x, x ∈ s.typing.eraseIdx i → x ∈ s.typing :=
    fun x hx => (List.eraseIdx_sublist _ _).subset hx
  refine ⟨?_, hi.root, (hi.closed.of_fields { s with typing := s.typing.eraseIdx i }
        rfl rfl rfl rfl rfl).after_completion c, ?_, ?_, ?_, ?_, ?_, ?_⟩
  · cases c <;> exact hi.rep.of_eq rfl rfl
  · intro _ a ha
    have hca : c = .answerButtons := by
      cases c <;> simp [Completion.run] at ha
      rfl
    subst hca
    exact (hi.answerNext hmem).transfer rfl
  · intro _ ha
    have hcg : c = .guessButtons := by
      cases c <;> simp [Completion.run] at ha
      rfl
    subst hcg
    exact (hi.guessNext hmem).carry rfl rfl rfl
  · intro ha
    have : Completion.answerButtons ∈ s.typing := hsub _ (by cases c <;> exact ha)
    exact (hi.answerNext this).transfer (by cases c <;> rfl)
  · intro ha
    have : Completion.guessButtons ∈ s.typing := hsub _ (by cases c <;> exact ha)
    exact (hi.guessNext this).carry (by cases c <;> rfl) (by cases c <;> rfl)
      (by cases c <;> rfl)
  · intro h
    have : s.learningBoxHidden = false := by cases c <;> exact h
    rw [hl] at this
    cases this
  · intro h hh
    cases c
    · exact hi.over h hh
    · exact hi.over h hh
    · exact hi.over h hh
    · simpa [Completion.run] using hh

theorem GameInv.keep_event {s : State} {t : ATree} (hi : GameInv s t) (e : Event)
    (hm : Permitted s e) (hw : Waited s e) : ∃ t2, GameInv (e.run s) t2 := by
  cases e with
  | input u q =>
    exact ⟨t, hi.rep.of_eq rfl rfl, hi.root, hi.closed.after_event (.input u q), hi.answering,
      hi.guessed, hi.answerNext, hi.guessNext, hi.learning, hi.over⟩
  | teach a => exact hi.keep_processLearning a hm
  | typed i =>
    cases h : s.typing[i]? with
    | none =>
      simp only [Event.run, h]
      exact ⟨t, hi⟩
    | some c =>
      simp only [Event.run, h]
      exact ⟨t, hi.keep_completion i c h⟩
  | click h =>
    have hl := hi.hidden_of_click hm
    have hty : s.typing = [] := hw
    cases h with
    | beginGame => exact ⟨t, hi.keep_beginGame hty hl⟩
    | maybeLater => exact ⟨t, hi⟩
    | handleAnswer a => exact ⟨t, hi.keep_handleAnswer a hm hty⟩
    | handleCorrectGuess =>
      refine ⟨t, ?_⟩
      show GameInv (typeWriter "Heh heh heh... I always win. Play again?" .overButtons
        { s with gameState := "end" }) t
      refine gameInv_typeWriter _ _ (hi.rep.of_eq rfl rfl) hi.root
        (hi.closed.of_fields _ rfl rfl rfl rfl rfl) hty hl hi.over ?_ ?_
      · intro h
        cases h
      · intro h
        cases h
    | startLearning =>
      have hmem := hi.mem_controls hm (by simp)
      refine ⟨t, hi.rep.of_eq rfl rfl, hi.root, hi.closed.after_event (.click .startLearning),
        ?_, ?_, ?_, ?_, ?_, hi.over⟩
      · intro _ b hb
        simp [Event.run, Handler.run, startLearning, Outcome.state] at hb
      · intro _ hb
        simp [Event.run, Handler.run, startLearning, Outcome.state] at hb
      · intro hb
        simp [Event.run, Handler.run, startLearning, Outcome.state, hty] at hb
      · intro hb
        simp [Event.run, Handler.run, startLearning, Outcome.state, hty] at hb
      · intro _
        exact ⟨rfl, rfl, hty, (hi.guessed hty hmem).carry rfl rfl rfl⟩
    | resetGameToInitialState =>
      obtain ⟨lay, ext, hrun, he, hrep, hseal⟩ := reset_spec hi.closed
      have hq : lay.isGuess = false := ATree.isGuess_of_erase (by rw [he]; rfl)
      simp only [Event.run, Handler.run, hrun, Outcome.state]
      refine ⟨lay, gameInv_typeWriter _ _ hrep hq hseal hty hl hi.over ?_ ?_⟩
      · intro _
        exact ⟨[], lay, lay.sub_nil, hq, rfl⟩
      · intro h
        cases lay with
        | guess x g => simp [ATree.isGuess] at hq
        | question x q y n => cases h

theorem ReachableWaiting.inv {s : State} (h : ReachableWaiting s) : ∃ t, GameInv s t := by
  induction h with
  | start => exact ⟨startedTree, gameInv_started⟩
  | step _ hm hw ih =>
    obtain ⟨t, hi⟩ := ih
    exact hi.keep_event _ hm hw

theorem reachable_runEvents (es : List Event) :
    ∀ {s : State}, Reachable s → allPermitted es s = true → Reachable (runEvents es s) := by
  induction es with
  | nil => exact fun h _ => h
  | cons e es ih =>
    intro s h hall
    simp only [allPermitted, Bool.and_eq_true, decide_eq_true_eq] at hall
    exact ih (h.step hall.1) hall.2

theorem reachableWaiting_runEvents (es : List Event) :
    ∀ {s : State}, ReachableWaiting s → allWaited es s = true →
      ReachableWaiting (runEvents es s) := by
  induction es with
  | nil => exact fun h _ => h
  | cons e es ih =>
    intro s h hall
    simp only [allWaited, Bool.and_eq_true, decide_eq_true_eq] at hall
    exact ih (h.step hall.1.1 hall.1.2) hall.2

theorem ATree.isQuestion_erase {t : ATree} (h : t.isGuess = false) :
    t.erase.isQuestion = true := by
  cases t with
  | guess x g => simp [ATree.isGuess] at h
  | question x q y n => rfl

/-! ## The properties C1 to C10 -/

/-- C1. Learning splices exactly at the wrong guess. For every live tree `t`
(laid out in the heap without sharing, guess strings non-empty) and every
non-empty answer path `p` that ends at a guess leaf `g`: the round `beginGame`,
`handleAnswer` along `p`, then `processLearning a` with field values whose
trimmed texts are both non-empty, runs without error and leaves the live tree
equal to the old tree with the leaf at `p` replaced by the question node with
the trimmed question, the trimmed object name as a guess on branch `a` and `g`
on the opposite branch. Every object that existed before, other than the one
`parentNode` refers to, is untouched. -/
theorem learning_splices_at_wrong_guess (s : State) (t : ATree) (p : List Answer)
    (g : String) (a : Answer) (userObject newQuestion : String)
    (hr : Represents s t) (hne : p ≠ []) (hp : t.erase.sub p = some (.guess g))
    (hn : jsTrim userObject ≠ "") (hq : jsTrim newQuestion ≠ "") :
    liveTree s = some t.erase ∧
    (teachRound p a userObject newQuestion s).error = none ∧
    liveTree (teachRound p a userObject newQuestion s).state
      = some (t.erase.replace p
          (Tree.learned (jsTrim newQuestion) a (jsTrim userObject) (.guess g))) ∧
    ∀ x, x < s.heap.length → .obj x ≠ (playRound p s).state.parentNode →
      (teachRound p a userObject newQuestion s).state.heap[x]? = s.heap[x]? := by
  obtain ⟨p0, la, rfl⟩ := exists_append_singleton hne
  obtain ⟨d, hd, hde⟩ := ATree.sub_of_erase_sub hp
  obtain ⟨parent, hpar, hch⟩ := ATree.sub_split hd
  obtain ⟨bs, ts, hwalk, hrun, hrep⟩ := teachRound_represents a hr hpar hch hn hq
  refine ⟨hr.liveTree_eq, by rw [hrun]; rfl, ?_, ?_⟩
  · rw [hrun, Outcome.state, hrep.liveTree_eq, ATree.erase_replace, ATree.erase_learned, hde]
  · intro x hx hne2
    rw [hrun, hwalk] at *
    exact learnedState_heap_other _ _ _ _ hx (fun e => hne2 (by rw [e]; rfl))

/-- C1 at the tree the program starts with: after "no", "no" the guess is
"a rock"; teaching "a banana" with answer yes. -/
theorem learning_splices_at_wrong_guess_witness :
    liveTree started = some startedTree.erase ∧
    (teachRound [.no, .no] .yes " a banana " "Is it yellow?" started).error = none ∧
    liveTree (teachRound [.no, .no] .yes " a banana " "Is it yellow?" started).state
      = some (startedTree.erase.replace [.no, .no]
          (Tree.learned (jsTrim "Is it yellow?") .yes (jsTrim " a banana ") (.guess "a rock"))) ∧
    ∀ x, x < started.heap.length → .obj x ≠ (playRound [.no, .no] started).state.parentNode →
      (teachRound [.no, .no] .yes " a banana " "Is it yellow?" started).state.heap[x]?
        = started.heap[x]? :=
  learning_splices_at_wrong_guess started startedTree [.no, .no] "a rock" .yes " a banana "
    "Is it yellow?" ⟨rfl, by decide, by decide, by decide⟩ (by decide) (by decide) (by decide)
    (by decide)

/-- C2. A learned question is exercised on the very next round. After the
teaching round of C1 (path `p` to the guess `g`, answer `a`, trimmed object
name and question non-empty), `beginGame` and `handleAnswer` along the same
path `p` run without error and stop at a node that has the new question and no
guess, with the game asking ("playing"). Answering that question with `a`
yields the guess of the new object; answering it with the opposite of `a`
yields the old guess `g`. This is for both values of `a`. -/
theorem learned_question_asked_next_round (s : State) (t : ATree) (p : List Answer)
    (g : String) (a : Answer) (userObject newQuestion : String)
    (hr : Represents s t) (hne : p ≠ []) (hp : t.erase.sub p = some (.guess g))
    (hn : jsTrim userObject ≠ "") (hq : jsTrim newQuestion ≠ "") :
    (nextRound p a userObject newQuestion s).error = none ∧
    (nextRound p a userObject newQuestion s).state.gameState = "playing" ∧
    currentQuestion (nextRound p a userObject newQuestion s).state = some (jsTrim newQuestion) ∧
    currentGuess (nextRound p a userObject newQuestion s).state = none ∧
    (handleAnswer a (nextRound p a userObject newQuestion s).state).error = none ∧
    (handleAnswer a (nextRound p a userObject newQuestion s).state).state.gameState
      = "guessing" ∧
    currentGuess (handleAnswer a (nextRound p a userObject newQuestion s).state).state
      = some (jsTrim userObject) ∧
    (handleAnswer a.opposite (nextRound p a userObject newQuestion s).state).error = none ∧
    (handleAnswer a.opposite (nextRound p a userObject newQuestion s).state).state.gameState
      = "guessing" ∧
    currentGuess (handleAnswer a.opposite (nextRound p a userObject newQuestion s).state).state
      = some g := by
  obtain ⟨p0, la, rfl⟩ := exists_append_singleton hne
  obtain ⟨d, hd, hde⟩ := ATree.sub_of_erase_sub hp
  obtain ⟨parent, hpar, hch⟩ := ATree.sub_split hd
  obtain ⟨bs, ts, -, hrun, hrep⟩ := teachRound_represents a hr hpar hch hn hq
  cases d with
  | question z q2 y2 n2 => simp [ATree.erase] at hde
  | guess z g2 =>
    simp only [ATree.erase, Tree.guess.injEq] at hde
    subst hde
    have hsub := ATree.sub_replace_append [la] (ATree.learned (s.heap.length + 1)
      (jsTrim newQuestion) a s.heap.length (jsTrim userObject) (.guess z g2)) hpar
    have hch2 := ATree.child_replace_singleton (ATree.learned (s.heap.length + 1)
      (jsTrim newQuestion) a s.heap.length (jsTrim userObject) (.guess z g2)) hch
    obtain ⟨bs2, ts2, hwalk⟩ := playRound_walk hrep hsub hch2
    have hnew := (hrep.holds.sub hsub).child hch2
    have hnewg := guesses_child (guesses_sub hrep.guesses hsub) hch2
    obtain ⟨hca, hco⟩ := ATree.child_learned (s.heap.length + 1) (jsTrim newQuestion) a
      s.heap.length (jsTrim userObject) (.guess z g2)
    -- the state the replayed round stops in, and what follows from it alone
    have key : ∀ (st : State) (c : ATree),
        c = ATree.learned (s.heap.length + 1) (jsTrim newQuestion) a s.heap.length
          (jsTrim userObject) (.guess z g2) →
        Holds st.heap c → c.erase.GuessesNonEmpty → st.currentNode = .obj c.addr →
        st.gameState = (if c.isGuess then "guessing" else "playing") →
        st.gameState = "playing" ∧ currentQuestion st = some (jsTrim newQuestion) ∧
          currentGuess st = none ∧
          (handleAnswer a st).error = none ∧
          (handleAnswer a st).state.gameState = "guessing" ∧
          currentGuess (handleAnswer a st).state = some (jsTrim userObject) ∧
          (handleAnswer a.opposite st).error = none ∧
          (handleAnswer a.opposite st).state.gameState = "guessing" ∧
          currentGuess (handleAnswer a.opposite st).state = some g2 := by
      intro st c hc hh hgs hcur hstate
      have h1 := handleAnswer_step hh hgs hcur (hc ▸ hca)
      have h2 := handleAnswer_step hh hgs hcur (hc ▸ hco)
      have hg1 := currentGuess_of_holds
        (s := shown (.guess s.heap.length (jsTrim userObject))
          (arrive st c.addr a (.guess s.heap.length (jsTrim userObject))))
        (by rw [shown, typeWriter_heap]; exact hh.child (hc ▸ hca))
        (by rw [shown, typeWriter_currentNode]; rfl)
      have hg2 := currentGuess_of_holds
        (s := shown (.guess z g2) (arrive st c.addr a.opposite (.guess z g2)))
        (by rw [shown, typeWriter_heap]; exact hh.child (hc ▸ hco))
        (by rw [shown, typeWriter_currentNode]; rfl)
      have hq1 : c.isGuess = false ∧ currentQuestion st = some (jsTrim newQuestion) ∧
          currentGuess st = none := by
        subst hc
        cases a
        · exact ⟨rfl, currentQuestion_of_holds hh hcur⟩
        · exact ⟨rfl, currentQuestion_of_holds hh hcur⟩
      rw [h1, h2]
      refine ⟨by simpa [hq1.1] using hstate, hq1.2.1, hq1.2.2, rfl, ?_, hg1.1, rfl, ?_, hg2.1⟩
      · simp [Outcome.state, shown, arrive, ATree.isGuess]
      · simp [Outcome.state, shown, arrive, ATree.isGuess]
    have := key (withUI (arrive
        (begun (taught s parent.addr la (.guess z g2) a userObject newQuestion bs ts))
        (parent.replace [la] (ATree.learned (s.heap.length + 1) (jsTrim newQuestion) a
          s.heap.length (jsTrim userObject) (.guess z g2))).addr la
        (ATree.learned (s.heap.length + 1) (jsTrim newQuestion) a s.heap.length
          (jsTrim userObject) (.guess z g2))) bs2 ts2) _ rfl hnew hnewg rfl rfl
    simp only [nextRound, hrun, Outcome.state, hwalk, Outcome.error]
    exact ⟨trivial, this⟩

/-- C2 at the tree the program starts with, teaching "a banana" below
"Can you eat it?" / no with the answer no. -/
theorem learned_question_asked_next_round_witness :
    (nextRound [.no, .no] .no "a banana" "Is it grey?" started).error = none ∧
    (nextRound [.no, .no] .no "a banana" "Is it grey?" started).state.gameState = "playing" ∧
    currentQuestion (nextRound [.no, .no] .no "a banana" "Is it grey?" started).state
      = some (jsTrim "Is it grey?") ∧
    currentGuess (nextRound [.no, .no] .no "a banana" "Is it grey?" started).state = none ∧
    (handleAnswer .no (nextRound [.no, .no] .no "a banana" "Is it grey?" started).state).error
      = none ∧
    (handleAnswer .no
      (nextRound [.no, .no] .no "a banana" "Is it grey?" started).state).state.gameState
      = "guessing" ∧
    currentGuess (handleAnswer .no
      (nextRound [.no, .no] .no "a banana" "Is it grey?" started).state).state
      = some (jsTrim "a banana") ∧
    (handleAnswer Answer.no.opposite
      (nextRound [.no, .no] .no "a banana" "Is it grey?" started).state).error = none ∧
    (handleAnswer Answer.no.opposite
      (nextRound [.no, .no] .no "a banana" "Is it grey?" started).state).state.gameState
      = "guessing" ∧
    currentGuess (handleAnswer Answer.no.opposite
      (nextRound [.no, .no] .no "a banana" "Is it grey?" started).state).state
      = some "a rock" :=
  learned_question_asked_next_round started startedTree [.no, .no] "a rock" .no "a banana"
    "Is it grey?" ⟨rfl, by decide, by decide, by decide⟩ (by decide) (by decide) (by decide)
    (by decide)

/-- C3. Reset undoes all learning. Whatever events the page has handled since
the start (clicks on any button, teaching with any field values, in any
order and number), the objects of the literal `initialDecisionTree` still
spell the tree the program started with, and `resetGameToInitialState` runs
without error and leaves a live tree deep-equal to that tree. -/
theorem reset_restores_initial_tree (es : List Event) :
    liveTree loaded = some initialDecisionTree ∧
    initialTree (runEvents es started) = some initialDecisionTree ∧
    (resetGameToInitialState (runEvents es started)).error = none ∧
    liveTree (resetGameToInitialState (runEvents es started)).state
      = some initialDecisionTree := by
  have hs : Sealed (runEvents es started) := Sealed.after_events es sealed_started
  obtain ⟨lay, ext, hrun, he, hrep, -⟩ := reset_spec hs
  refine ⟨by decide, ?_, by rw [hrun]; rfl, ?_⟩
  · have hlen := hs.length_le
    have h7 : initialHeap.length = 7 := rfl
    have := stringify_of_holds (holds_initialLayout hs) (runEvents es started).heap.length
      (by simp only [initialLayout, ATree.height]; omega)
    rw [initialTree, hs.init]
    simp only [initialLayout, ATree.addr_question] at this
    rw [this]
    exact Tree.toTree?_toJson _
  · have := (represents_typeWriter hrep lay.promptText lay.promptButtons).liveTree_eq
    rw [hrun]
    exact this.trans (by rw [he])

/-- Learning does change the live tree, so the reset of C3 has something to
undo. -/
theorem learning_changes_live_tree :
    liveTree (runEvents [.typed 0, .click .beginGame, .typed 0, .click (.handleAnswer .no),
      .typed 0, .click (.handleAnswer .no), .typed 0, .click .startLearning,
      .input "a banana" "Is it yellow?", .teach .yes] started) ≠ some initialDecisionTree := by
  decide

theorem jsTrim_whitespace (w : String) (h : ∀ c ∈ w.data, isJsWhiteSpace c = true) :
    jsTrim w = "" := by
  have : w.data.dropWhile isJsWhiteSpace = [] := List.dropWhile_eq_nil_iff.mpr h
  simp [jsTrim, this]

/-- C4. Validation is atomic. In every state, when the object name or the
question is empty after trimming white space (which is so for input made of
white space only, `jsTrim_whitespace`), `processLearning` stops at the
validation alert and the state is exactly what it was: heap, live tree,
`currentNode`, `parentNode`, `lastAnswer`, `gameState`, the fields. -/
theorem validation_is_atomic (a : Answer) (s : State)
    (h : jsTrim s.userObjectInput = "" ∨ jsTrim s.newQuestionInput = "") :
    processLearning a s = .fail .validation s := by
  simp [processLearning, h]

/-- C4 with a question of white space only, after a wrong guess. -/
theorem validation_is_atomic_witness :
    processLearning .yes (typeInputs "a banana" " \t " (playRound [.no, .no] started).state)
      = .fail .validation (typeInputs "a banana" " \t " (playRound [.no, .no] started).state) :=
  validation_is_atomic .yes (typeInputs "a banana" " \t " (playRound [.no, .no] started).state)
    (Or.inr (jsTrim_whitespace " \t " (by decide)))

/-- C5 fails as stated: at the guess "a cat" (after yes, yes from the start)
`handleAnswer yes` stops with an error, but it has already overwritten
`parentNode`, `lastAnswer` and `currentNode`. -/
theorem handleAnswer_at_guess_changes_session :
    currentGuess (playRound [.yes, .yes] started).state = some "a cat" ∧
    (handleAnswer .yes (playRound [.yes, .yes] started).state).error = some .typeError ∧
    (handleAnswer .yes (playRound [.yes, .yes] started).state).state.currentNode
      ≠ (playRound [.yes, .yes] started).state.currentNode ∧
    (handleAnswer .yes (playRound [.yes, .yes] started).state).state.parentNode
      ≠ (playRound [.yes, .yes] started).state.parentNode := by
  decide

/-- C5 as amended. `handleAnswer` while `currentNode` is a guess leaf stops
with an error (the `TypeError` of reading `guess` of `undefined`) and leaves
the heap, hence the live tree, and `gameState` as they were; of the session it
has by then set `parentNode` to the guess leaf, `lastAnswer` to the answer
and `currentNode` to `undefined`. -/
theorem handleAnswer_at_guess (a : Answer) (s : State) (c : Nat) (g : String)
    (hcur : s.currentNode = .obj c)
    (hleaf : s.heap[c]? = some ⟨none, some g, .undefined, .undefined⟩) :
    handleAnswer a s = .fail .typeError
      { s with parentNode := s.currentNode, lastAnswer := some a, currentNode := .undefined } := by
  cases a <;> simp [handleAnswer, hcur, deref, hleaf, Obj.get]

/-- C5 as amended, at the guess "a cat". -/
theorem handleAnswer_at_guess_witness :
    handleAnswer .yes (playRound [.yes, .yes] started).state = .fail .typeError
      { (playRound [.yes, .yes] started).state with
        parentNode := (playRound [.yes, .yes] started).state.currentNode
        lastAnswer := some .yes
        currentNode := .undefined } :=
  handleAnswer_at_guess .yes (playRound [.yes, .yes] started).state 7 "a cat" (by decide)
    (by decide)

/-- C6 fails as stated: at the question "Does it meow?" (after yes from the
start) `processLearning` with both fields filled in runs without error and
changes the live tree. -/
theorem processLearning_at_question_mutates :
    currentQuestion (playRound [.yes] started).state = some "Does it meow?" ∧
    (playRound [.yes] started).state.parentNode ≠ .null ∧
    (teachRound [.yes] .yes "a fish" "Does it swim?" started).error = none ∧
    liveTree (teachRound [.yes] .yes "a fish" "Does it swim?" started).state
      ≠ liveTree (playRound [.yes] started).state := by
  decide

/-- C6 as amended. `processLearning` checks no state: called with both
trimmed fields non-empty while `currentNode` is a question node reached by at
least one answer, it runs without error and splices the new question node in
at that position, with the whole subtree of the current question on the
branch opposite to `a`; `currentNode`, `parentNode`, `lastAnswer` and
`gameState` stay as they were. -/
theorem processLearning_at_question_splices (s : State) (t : ATree) (p : List Answer)
    (q0 : String) (y0 n0 : Tree) (a : Answer) (userObject newQuestion : String)
    (hr : Represents s t) (hne : p ≠ []) (hp : t.erase.sub p = some (.question q0 y0 n0))
    (hn : jsTrim userObject ≠ "") (hq : jsTrim newQuestion ≠ "") :
    (teachRound p a userObject newQuestion s).error = none ∧
    liveTree (teachRound p a userObject newQuestion s).state
      = some (t.erase.replace p
          (Tree.learned (jsTrim newQuestion) a (jsTrim userObject) (.question q0 y0 n0))) ∧
    (teachRound p a userObject newQuestion s).state.currentNode
      = (playRound p s).state.currentNode ∧
    (teachRound p a userObject newQuestion s).state.parentNode
      = (playRound p s).state.parentNode ∧
    (teachRound p a userObject newQuestion s).state.lastAnswer
      = (playRound p s).state.lastAnswer ∧
    (teachRound p a userObject newQuestion s).state.gameState
      = (playRound p s).state.gameState := by
  obtain ⟨p0, la, rfl⟩ := exists_append_singleton hne
  obtain ⟨d, hd, hde⟩ := ATree.sub_of_erase_sub hp
  obtain ⟨parent, hpar, hch⟩ := ATree.sub_split hd
  obtain ⟨bs, ts, hwalk, hrun, hrep⟩ := teachRound_represents a hr hpar hch hn hq
  rw [hrun, hwalk]
  refine ⟨rfl, ?_, rfl, rfl, rfl, rfl⟩
  rw [Outcome.state, hrep.liveTree_eq, ATree.erase_replace, ATree.erase_learned, hde]

/-- C6 as amended, at the question "Does it meow?". -/
theorem processLearning_at_question_splices_witness :
    (teachRound [.yes] .yes "a fish" "Does it swim?" started).error = none ∧
    liveTree (teachRound [.yes] .yes "a fish" "Does it swim?" started).state
      = some (startedTree.erase.replace [.yes]
          (Tree.learned (jsTrim "Does it swim?") .yes (jsTrim "a fish")
            (.question "Does it meow?" (.guess "a cat") (.guess "a dog")))) ∧
    (teachRound [.yes] .yes "a fish" "Does it swim?" started).state.currentNode
      = (playRound [.yes] started).state.currentNode ∧
    (teachRound [.yes] .yes "a fish" "Does it swim?" started).state.parentNode
      = (playRound [.yes] started).state.parentNode ∧
    (teachRound [.yes] .yes "a fish" "Does it swim?" started).state.lastAnswer
      = (playRound [.yes] started).state.lastAnswer ∧
    (teachRound [.yes] .yes "a fish" "Does it swim?" started).state.gameState
      = (playRound [.yes] started).state.gameState :=
  processLearning_at_question_splices started startedTree [.yes] "Does it meow?"
    (.guess "a cat") (.guess "a dog") .yes "a fish" "Does it swim?"
    ⟨rfl, by decide, by decide, by decide⟩ (by decide) (by decide) (by decide) (by decide)

/-- C7 fails as stated: directly after `beginGame` from the start,
`processLearning` with both fields filled in is not refused by an invalid-state
error. `main.js` raises none; the call is stopped by the runtime's uncaught
`TypeError` for the write to `null`, and the one refusal `processLearning`
makes itself, the validation alert, is not taken. -/
theorem processLearning_without_parent_is_typeError :
    (beginGame started).state.parentNode = .null ∧
    (processLearning .no (typeInputs "a fish" "Does it swim?" (beginGame started).state)).error
      = some .typeError ∧
    (processLearning .no (typeInputs "a fish" "Does it swim?" (beginGame started).state)).error
      ≠ some .validation := by
  decide

/-- C7 as amended. Teaching with no question asked yet cannot splice. Directly
after `beginGame` on a live tree `parentNode` is `null`, and `processLearning`
with both trimmed fields non-empty is stopped by the runtime's uncaught
`TypeError` for the write `parentNode[lastAnswer] = ...`, not by an error of
the game's own. Nothing is mutated: the live tree is the same tree, every
object that existed is untouched, and `currentNode`, `parentNode`,
`lastAnswer`, `gameState` and `decisionTree` are as `beginGame` left them. -/
theorem processLearning_without_parent (s : State) (t : ATree) (a : Answer)
    (userObject newQuestion : String) (hr : Represents s t)
    (hn : jsTrim userObject ≠ "") (hq : jsTrim newQuestion ≠ "") :
    (beginGame s).state.parentNode = .null ∧
    (processLearning a (typeInputs userObject newQuestion (beginGame s).state)).error
      = some .typeError ∧
    liveTree (beginGame s).state = some t.erase ∧
    liveTree (processLearning a (typeInputs userObject newQuestion (beginGame s).state)).state
      = some t.erase ∧
    (∀ x, x < (beginGame s).state.heap.length →
      (processLearning a (typeInputs userObject newQuestion (beginGame s).state)).state.heap[x]?
        = (beginGame s).state.heap[x]?) ∧
    (processLearning a (typeInputs userObject newQuestion (beginGame s).state)).state
      = { typeInputs userObject newQuestion (beginGame s).state with
          heap := (processLearning a
            (typeInputs userObject newQuestion (beginGame s).state)).state.heap } := by
  obtain ⟨hh, -, hd, hpn, -, -⟩ := beginGame_frame s
  have hr1 : Represents (beginGame s).state t := hr.of_eq hh hd
  have hrun : processLearning a (typeInputs userObject newQuestion (beginGame s).state)
      = .fail .typeError { typeInputs userObject newQuestion (beginGame s).state with
          heap := ((beginGame s).state.heap ++
            [⟨none, some (jsTrim userObject), .undefined, .undefined⟩]) ++
            [questionObj (jsTrim newQuestion) a (.obj (beginGame s).state.heap.length)
              (beginGame s).state.currentNode] } := by
    simp [processLearning, typeInputs, hn, hq, hpn, Heap.alloc]
  have hsame : ∀ x, x < (beginGame s).state.heap.length →
      (((beginGame s).state.heap ++
        [⟨none, some (jsTrim userObject), .undefined, .undefined⟩]) ++
        [questionObj (jsTrim newQuestion) a (.obj (beginGame s).state.heap.length)
          (beginGame s).state.currentNode])[x]? = (beginGame s).state.heap[x]? := by
    intro x hx
    rw [List.getElem?_append_left (by simp; omega), List.getElem?_append_left hx]
  refine ⟨hpn, by rw [hrun]; rfl, hr1.liveTree_eq, ?_, ?_, by rw [hrun]; rfl⟩
  · rw [hrun, Outcome.state]
    refine Represents.liveTree_eq ⟨hr1.root, hr1.holds.frame (fun x hx => ?_), hr1.nodup,
      hr1.guesses⟩
    exact hsame x (hr1.holds.lt_length x hx)
  · rw [hrun]
    exact hsame

/-- C7 as amended, at the start of the first round. -/
theorem processLearning_without_parent_witness :
    (beginGame started).state.parentNode = .null ∧
    (processLearning .yes (typeInputs "a banana" "Is it yellow?" (beginGame started).state)).error
      = some .typeError ∧
    liveTree (beginGame started).state = some startedTree.erase ∧
    liveTree (processLearning .yes
      (typeInputs "a banana" "Is it yellow?" (beginGame started).state)).state
      = some startedTree.erase ∧
    (∀ x, x < (beginGame started).state.heap.length →
      (processLearning .yes
        (typeInputs "a banana" "Is it yellow?" (beginGame started).state)).state.heap[x]?
        = (beginGame started).state.heap[x]?) ∧
    (processLearning .yes (typeInputs "a banana" "Is it yellow?" (beginGame started).state)).state
      = { typeInputs "a banana" "Is it yellow?" (beginGame started).state with
          heap := (processLearning .yes
            (typeInputs "a banana" "Is it yellow?" (beginGame started).state)).state.heap } :=
  processLearning_without_parent started startedTree .yes "a banana" "Is it yellow?"
    ⟨rfl, by decide, by decide, by decide⟩ (by decide) (by decide)

/-- C8. Traversal terminates at a guess. For every live tree whose root is a
question node and every unending supply `f` of answers, there is a `k` with
`1 ≤ k ≤ depth` such that `beginGame` followed by the first `k` answers runs
without error and ends at a guess leaf of the tree (the game is "guessing"),
while after every smaller number `j` of answers the game is still asking at a
node without a guess. Each of these `handleAnswer` calls moves `currentNode`
to the child of the previous `currentNode` on the branch answered, sets
`parentNode` to the previous `currentNode` and `lastAnswer` to the answer. -/
theorem traversal_reaches_guess (s : State) (t : ATree) (f : Nat → Answer)
    (hr : Represents s t) (hq : t.erase.isQuestion = true) :
    ∃ k, 1 ≤ k ∧ k ≤ t.erase.depth ∧
      (playRound (firstAnswers f k) s).error = none ∧
      (playRound (firstAnswers f k) s).state.gameState = "guessing" ∧
      (∃ g, t.erase.sub (firstAnswers f k) = some (.guess g) ∧
        currentGuess (playRound (firstAnswers f k) s).state = some g) ∧
      ∀ j, j < k →
        (playRound (firstAnswers f j) s).error = none ∧
        (playRound (firstAnswers f j) s).state.gameState = "playing" ∧
        currentGuess (playRound (firstAnswers f j) s).state = none ∧
        playRound (firstAnswers f (j + 1)) s
          = handleAnswer (f j) (playRound (firstAnswers f j) s).state ∧
        (playRound (firstAnswers f (j + 1)) s).state.parentNode
          = (playRound (firstAnswers f j) s).state.currentNode ∧
        (playRound (firstAnswers f (j + 1)) s).state.lastAnswer = some (f j) ∧
        ∃ o, currentObj (playRound (firstAnswers f j) s).state = some o ∧
          (playRound (firstAnswers f (j + 1)) s).state.currentNode = o.get (f j) := by
  have hq2 := ATree.isGuess_of_erase hq
  obtain ⟨k, hk1, hk2, ⟨z, g, hz⟩, hall⟩ := t.descend f hq2
  refine ⟨k, hk1, hk2, ?_, ?_, ⟨g, ?_, ?_⟩, ?_⟩
  · obtain ⟨st, hst, -, -, -⟩ := playRound_at hr hq2 hz
    rw [hst]
    rfl
  · obtain ⟨st, hst, -, -, hgs⟩ := playRound_at hr hq2 hz
    rw [hst]
    simpa [ATree.isGuess] using hgs
  · rw [ATree.erase_sub, hz]
    rfl
  · obtain ⟨st, hst, hh, hcur, -⟩ := playRound_at hr hq2 hz
    rw [hst]
    have hh2 : Holds st.heap (.guess z g) := hh ▸ hr.holds.sub hz
    exact (currentGuess_of_holds hh2 hcur).1
  · intro j hj
    obtain ⟨c, hc, hcg⟩ := hall j hj
    obtain ⟨st, hst, hh, hcur, hgs⟩ := playRound_at hr hq2 hc
    have hnext : ∃ d, t.sub (firstAnswers f (j + 1)) = some d := by
      by_cases hjk : j + 1 < k
      · obtain ⟨d, hd, -⟩ := hall (j + 1) hjk
        exact ⟨d, hd⟩
      · have : j + 1 = k := by omega
        exact ⟨_, this ▸ hz⟩
    obtain ⟨d, hd⟩ := hnext
    rw [firstAnswers_succ] at hd
    obtain ⟨parent, hpar, hch⟩ := ATree.sub_split hd
    rw [hc] at hpar
    cases hpar
    have hch1 : Holds st.heap c := hh ▸ hr.holds.sub hc
    have hstep := handleAnswer_step hch1 (guesses_sub hr.guesses hc) hcur hch
    have happ := playRound_append_singleton (firstAnswers f j) (f j) s st hst
    rw [firstAnswers_succ, happ, hst]
    simp only [Outcome.state, Outcome.error, hstep]
    cases c with
    | guess x g2 => simp [ATree.isGuess] at hcg
    | question x q y n =>
      obtain ⟨hq3, hg3⟩ := currentQuestion_of_holds hch1 hcur
      refine ⟨trivial, by simpa [ATree.isGuess] using hgs, hg3, trivial, ?_, ?_, ?_⟩
      · rw [hcur, shown, typeWriter_parentNode]
        rfl
      · rw [shown, typeWriter_lastAnswer]
        rfl
      · obtain ⟨h0, -, -⟩ := hch1
        refine ⟨⟨some q, none, .obj y.addr, .obj n.addr⟩,
          by simp [currentObj, deref, hcur, h0], ?_⟩
        rw [shown, typeWriter_currentNode]
        cases hfj : f j <;> rw [hfj] at hch <;>
          simp only [ATree.child, Option.some.injEq] at hch <;> subst hch <;> rfl

/-- C8 at the tree the program starts with, the user answering yes to
everything. -/
theorem traversal_reaches_guess_witness :
    ∃ k, 1 ≤ k ∧ k ≤ startedTree.erase.depth ∧
      (playRound (firstAnswers (fun _ => .yes) k) started).error = none ∧
      (playRound (firstAnswers (fun _ => .yes) k) started).state.gameState = "guessing" ∧
      (∃ g, startedTree.erase.sub (firstAnswers (fun _ => .yes) k) = some (.guess g) ∧
        currentGuess (playRound (firstAnswers (fun _ => .yes) k) started).state = some g) ∧
      ∀ j, j < k →
        (playRound (firstAnswers (fun _ => .yes) j) started).error = none ∧
        (playRound (firstAnswers (fun _ => .yes) j) started).state.gameState = "playing" ∧
        currentGuess (playRound (firstAnswers (fun _ => .yes) j) started).state = none ∧
        playRound (firstAnswers (fun _ => .yes) (j + 1)) started
          = handleAnswer ((fun _ => Answer.yes) j)
              (playRound (firstAnswers (fun _ => .yes) j) started).state ∧
        (playRound (firstAnswers (fun _ => .yes) (j + 1)) started).state.parentNode
          = (playRound (firstAnswers (fun _ => .yes) j) started).state.currentNode ∧
        (playRound (firstAnswers (fun _ => .yes) (j + 1)) started).state.lastAnswer
          = some ((fun _ => Answer.yes) j) ∧
        ∃ o, currentObj (playRound (firstAnswers (fun _ => .yes) j) started).state = some o ∧
          (playRound (firstAnswers (fun _ => .yes) (j + 1)) started).state.currentNode
            = o.get ((fun _ => Answer.yes) j) :=
  traversal_reaches_guess started startedTree (fun _ => .yes)
    ⟨rfl, by decide, by decide, by decide⟩ (by decide)

/-- C9. A round that ends in a correct guess never changes the knowledge
base. For every live tree and every non-empty answer path to a guess leaf,
`beginGame`, `handleAnswer` along the path and `handleCorrectGuess` run without
error, end the round ("end"), write no object and leave `decisionTree` where
it was: the live tree is deep-equal to what it was before the round. -/
theorem correct_guess_round_keeps_tree (s : State) (t : ATree) (p : List Answer) (g : String)
    (hr : Represents s t) (hne : p ≠ []) (hp : t.erase.sub p = some (.guess g)) :
    (correctRound p s).error = none ∧
    currentGuess (playRound p s).state = some g ∧
    (correctRound p s).state.gameState = "end" ∧
    (correctRound p s).state.heap = s.heap ∧
    (correctRound p s).state.decisionTree = s.decisionTree ∧
    liveTree s = some t.erase ∧
    liveTree (correctRound p s).state = liveTree s := by
  obtain ⟨p0, la, rfl⟩ := exists_append_singleton hne
  obtain ⟨d, hd, hde⟩ := ATree.sub_of_erase_sub hp
  obtain ⟨parent, hpar, hch⟩ := ATree.sub_split hd
  obtain ⟨bs, ts, hwalk⟩ := playRound_walk hr hpar hch
  cases d with
  | question z q y n => simp [ATree.erase] at hde
  | guess z g2 =>
    simp only [ATree.erase, Tree.guess.injEq] at hde
    subst hde
    have hg := currentGuess_of_holds
      (s := withUI (arrive (begun s) parent.addr la (.guess z g2)) bs ts) (hr.holds.sub hd) rfl
    have hlive : liveTree (handleCorrectGuess
        (withUI (arrive (begun s) parent.addr la (.guess z g2)) bs ts)).state = liveTree s := by
      simp [liveTree, handleCorrectGuess, Outcome.state, withUI, arrive, begun]
    simp only [correctRound, hwalk]
    refine ⟨rfl, hg.1, ?_, ?_, ?_, hr.liveTree_eq, hlive⟩
    · simp [handleCorrectGuess, Outcome.state]
    · simp [handleCorrectGuess, Outcome.state, withUI, arrive, begun]
    · simp [handleCorrectGuess, Outcome.state, withUI, arrive, begun]

/-- C9 at the tree the program starts with: yes, no guesses "a dog". -/
theorem correct_guess_round_keeps_tree_witness :
    (correctRound [.yes, .no] started).error = none ∧
    currentGuess (playRound [.yes, .no] started).state = some "a dog" ∧
    (correctRound [.yes, .no] started).state.gameState = "end" ∧
    (correctRound [.yes, .no] started).state.heap = started.heap ∧
    (correctRound [.yes, .no] started).state.decisionTree = started.decisionTree ∧
    liveTree started = some startedTree.erase ∧
    liveTree (correctRound [.yes, .no] started).state = liveTree started :=
  correct_guess_round_keeps_tree started startedTree [.yes, .no] "a dog"
    ⟨rfl, by decide, by decide, by decide⟩ (by decide) (by decide)

/-- C10 fails as stated: the page permits the events of `hastyRound`, in which
the answer buttons are clicked once more while the guess is being typed, and
they leave a live tree that is not a decision tree: the leaf "a cat" has
a `yes` child, and the new question node has no `no` child. -/
theorem hasty_click_breaks_tree :
    Reachable (runEvents hastyRound started) ∧
    liveTree (runEvents hastyRound started) = none ∧
    (∀ t, ¬ Represents (runEvents hastyRound started) t) ∧
    (runEvents hastyRound started).heap[7]?
      = some ⟨none, some "a cat", .obj 15, .undefined⟩ ∧
    (runEvents hastyRound started).heap[15]?
      = some ⟨some "Does it roar?", none, .obj 14, .undefined⟩ :=
  ⟨reachable_runEvents hastyRound Reachable.start (by decide), by decide,
    fun t hr => absurd hr.liveTree_eq (by
      have h : liveTree (runEvents hastyRound started) = none := by decide
      rw [h]
      exact fun e => nomatch e),
    by decide, by decide⟩

/-- C10 as amended. Tree well-formedness is an invariant of play for a user
who waits for each text. In every state reached from the start by events the
page permits (a click on a button shown, among them `beginGame`,
`handleAnswer`, `handleCorrectGuess`, `startLearning` and
`resetGameToInitialState`; `processLearning` while the learning box is shown;
the end of a text), where every click on a button comes when no text with
buttons to follow is still being typed, the live tree is a finite strict
binary tree `t` laid out in the heap without sharing, whose root is a question
node; every node is a question object with a yes and a no child and no guess,
or a guess object with a non-empty guess string, no question and no children;
and the truthiness of `guess` that `handleAnswer` tests is true exactly at the
guess leaves. -/
theorem reachable_tree_well_formed (s : State) (h : ReachableWaiting s) :
    ∃ t : ATree, Represents s t ∧ t.erase.isQuestion = true ∧ liveTree s = some t.erase ∧
      ∀ p c, t.sub p = some c →
        Holds s.heap c ∧ ∃ o, s.heap[c.addr]? = some o ∧ truthy o.guess = c.isGuess := by
  obtain ⟨t, hi⟩ := h.inv
  refine ⟨t, hi.rep, ATree.isQuestion_erase hi.root, hi.rep.liveTree_eq, ?_⟩
  intro p c hc
  have hh := hi.rep.holds.sub hc
  have hg := guesses_sub hi.rep.guesses hc
  refine ⟨hh, ?_⟩
  cases c with
  | guess x g =>
    have hne : g ≠ "" := hg
    exact ⟨_, hh, by simp [truthy, hne, ATree.isGuess]⟩
  | question x q y n => exact ⟨_, hh.1, rfl⟩

/-- C10 as amended, at the state after one full teaching round of a user who
waits for each text. -/
theorem reachable_tree_well_formed_witness :
    ∃ t : ATree, Represents (runEvents patientRound started) t ∧
      t.erase.isQuestion = true ∧
      liveTree (runEvents patientRound started) = some t.erase ∧
      ∀ p c, t.sub p = some c →
        Holds (runEvents patientRound started).heap c ∧
        ∃ o, (runEvents patientRound started).heap[c.addr]? = some o ∧
          truthy o.guess = c.isGuess :=
  reachable_tree_well_formed (runEvents patientRound started)
    (reachableWaiting_runEvents patientRound ReachableWaiting.start (by decide))

end TwentyQuestions
